import Mathlib

/-!
Verification development for the xv6fs storage stack (Rust sources under
src/src). The modules embedded here are fs.rs (layout constants and record
types), logging.rs (write-ahead log and transactions), bitmap.rs (free-block
bitmap), inode.rs (inode layer and inode cache) and buffer.rs (buffer cache).

Modelling conventions:
- a disk block is a byte function Nat -> Nat (indices 0..511 are meaningful);
- the buffer cache underneath the transaction proxy is modelled as always
  hitting (Transaction::read's unwrap of the cache never fails); buffer-cache
  capacity itself is modelled separately for the buffer-cache claims;
- Rust panics (unwrap of None, panic! calls, failed asserts) are modelled as
  the Option value none of the embedded function;
- usize arithmetic is modelled on Nat; the single place where wrap-around is
  observable (saturating_add in Inode::read / Inode::write) is modelled with
  an explicit 64-bit saturation;
- u32/u16 on-disk fields are serialized little-endian, one byte per cell.
-/

/-- disk.rs: size of each block. -/
def BSIZE : Nat := 512

/-- fs.rs: number of bitmap bits per block. -/
def BPB : Nat := BSIZE * 8

/-- fs.rs: number of inodes per block (512 / size_of DiskInode = 512/64). -/
def IPB : Nat := 8

/-- fs.rs: number of direct blocks of an inode. -/
def NDIRECT : Nat := 12

/-- fs.rs: number of indirect blocks of an inode (BSIZE / size_of u32). -/
def NINDIRECT : Nat := BSIZE / 4

/-- fs.rs: maximum number of log entries. -/
def LOGSIZE : Nat := 64

/-- logging.rs: maximum number of block writes one transaction may perform. -/
def MAXOPBLOCKS : Nat := 16

/-- Modelled from the spec: inode.rs imports MAXFILESIZE from fs.rs, but fs.rs
does not define it (it defines NIBLOCKS = NDIRECT + NINDIRECT).  The spec
states the maximum file size is (NDIRECT + NINDIRECT) * 512 bytes. -/
def MAXFILESIZE : Nat := (NDIRECT + NINDIRECT) * BSIZE

/-- usize saturating_add at 64 bits, as used by the overflow guards in
Inode::read and Inode::write. -/
def saturatingAdd (a b : Nat) : Nat := min (a + b) (2 ^ 64 - 1)

/-- A disk block as a byte function. -/
def Block : Type := Nat → Nat

/-- Pointwise update of a function Nat -> α. -/
def upd {α : Type} (f : Nat → α) (a : Nat) (v : α) : Nat → α :=
  fun x => if x = a then v else f x

/-- fs.rs SuperBlock (the fields the embedded operations consult). -/
structure SB where
  nblocks : Nat
  ninodes : Nat
  nlogs : Nat
  log_start : Nat
  inode_start : Nat
  bmap_start : Nat

/-- fs.rs SuperBlock::bblock: block of the free map holding the bit of
block `blockno`. -/
def SB.bblock (sb : SB) (blockno : Nat) : Nat := sb.bmap_start + blockno / BPB

/-- fs.rs SuperBlock::iblock: block containing inode `inodeno`. -/
def SB.iblock (sb : SB) (inodeno : Nat) : Nat := sb.inode_start + inodeno / IPB

/-- fs.rs LogHeader: count n plus destination block numbers. -/
structure LogHeader where
  n : Nat
  blocks : List Nat
  deriving DecidableEq

/-- The in-memory state seen through a transaction: the buffer-cache contents
(one block per block number) and the in-memory log header. -/
structure Fstate where
  blocks : Nat → Block
  lh : LogHeader

/-- logging.rs Transaction::write, header bookkeeping part: record `bno` into
the log header if not already present. -/
def lhRecord (lh : LogHeader) (bno : Nat) : LogHeader :=
  match (List.range lh.n).find? (fun i => lh.blocks.getD i 0 == bno) with
  | some i => { lh with blocks := lh.blocks.set i bno }
  | none => { n := lh.n + 1, blocks := lh.blocks.set lh.n bno }

namespace Transaction

/-- logging.rs Transaction::read: delegate to the buffer cache (modelled as
always hitting). -/
def read (s : Fstate) (bno : Nat) : Block := s.blocks bno

/-- logging.rs Transaction::write composed with the in-place mutation of the
locked buffer that every caller performs just before it: panic ("too big
transaction") when the header count has reached size - 1, otherwise record the
block number in the header and leave `data` as the cached contents of `bno`
(the buffer is pinned, not written to disk). -/
def write (sb : SB) (s : Fstate) (bno : Nat) (data : Block) : Option Fstate :=
  if sb.nlogs - 1 ≤ s.lh.n then none
  else some { blocks := upd s.blocks bno data, lh := lhRecord s.lh bno }

end Transaction

namespace Bitmap

/-- bitmap.rs Bitmap::alloc, bit test for block `i`: byte (i % BPB) / 8 of
bitmap block bblock(i), mask 1 << ((i % BPB) % 8). -/
def bitClear (sb : SB) (s : Fstate) (i : Nat) : Bool :=
  Transaction.read s (sb.bblock i) (i % BPB / 8) &&& (1 <<< (i % BPB % 8)) == 0

/-- bitmap.rs Bitmap::alloc, scan part: the outer loop runs b over
0 .. nblocks / BPB and the inner loop j over 0 .. BPB with i = b * BPB + j, so
exactly the block numbers below (nblocks / BPB) * BPB are examined (the inner
`i >= nblocks` break never fires inside that range). -/
def allocScan (sb : SB) (s : Fstate) : Option Nat :=
  (List.range (sb.nblocks / BPB * BPB)).find? (fun i => bitClear sb s i)

/-- bitmap.rs Bitmap::zero: overwrite block `blockno` with zeroes through the
transaction. -/
def zero (sb : SB) (s : Fstate) (blockno : Nat) : Option Fstate :=
  Transaction.write sb s blockno (fun _ => 0)

/-- bitmap.rs Bitmap::alloc: find a clear bit, set it, write the bitmap block
back through the transaction, zero the data block, return its number.  The
panic "no free block" when the scan finds nothing is modelled as none. -/
def alloc (sb : SB) (s : Fstate) : Option (Nat × Fstate) :=
  match allocScan sb s with
  | none => none
  | some i =>
    let blk := Transaction.read s (sb.bblock i)
    let blk2 := upd blk (i % BPB / 8) (blk (i % BPB / 8) ||| (1 <<< (i % BPB % 8)))
    match Transaction.write sb s (sb.bblock i) blk2 with
    | none => none
    | some s2 =>
      match zero sb s2 i with
      | none => none
      | some s3 => some (i, s3)

end Bitmap

/-- Little-endian u32 read at word index `k` of a block (the transmute of a
block to a [u32; NINDIRECT] array in Inode::nth_block). -/
def getWord (blk : Block) (k : Nat) : Nat :=
  blk (4 * k) + 256 * blk (4 * k + 1) + 65536 * blk (4 * k + 2) +
    16777216 * blk (4 * k + 3)

/-- Little-endian u32 store at word index `k` of a block. -/
def setWord (blk : Block) (k v : Nat) : Block :=
  fun j => if 4 * k ≤ j ∧ j < 4 * k + 4 then v / 256 ^ (j - 4 * k) % 256 else blk j

/-- inode.rs Inode with its loaded DiskInode (fs.rs): `no` is the inode
number; file_type is the u16 tag (0 = none, 1 = directory, 2 = file); addrs
has NDIRECT + 1 entries, the last being the indirect pointer. -/
structure Inode where
  no : Nat
  file_type : Nat
  nlink : Nat
  size : Nat
  addrs : List Nat

/-- Byte `k` (0..63) of the on-disk serialization of a DiskInode
(fs.rs repr(C): file_type u16, unused1 u16, unused2 u16, nlink u16,
size u32, addrs [u32; 13]); the unused fields are stored as zero. -/
def inodeByte (d : Inode) (k : Nat) : Nat :=
  if k < 2 then d.file_type / 256 ^ k % 256
  else if k < 6 then 0
  else if k < 8 then d.nlink / 256 ^ (k - 6) % 256
  else if k < 12 then d.size / 256 ^ (k - 8) % 256
  else d.addrs.getD ((k - 12) / 4) 0 / 256 ^ ((k - 12) % 4) % 256

/-- Overwrite inode slot `slot` (0..IPB-1) of an inode-table block with the
serialization of `d` (the transmute-and-assign in Inode::update). -/
def encodeInodeAt (blk : Block) (slot : Nat) (d : Inode) : Block :=
  fun j => if 64 * slot ≤ j ∧ j < 64 * slot + 64 then inodeByte d (j - 64 * slot) else blk j

/-- Decode inode slot `slot` of an inode-table block into an Inode numbered
`no` (the transmute-and-clone in Cache::lock). -/
def decodeInodeAt (blk : Block) (slot no : Nat) : Inode :=
  { no := no
    file_type := blk (64 * slot) + 256 * blk (64 * slot + 1)
    nlink := blk (64 * slot + 6) + 256 * blk (64 * slot + 7)
    size := getWord (fun j => blk (64 * slot + j)) 2
    addrs := (List.range (NDIRECT + 1)).map
      (fun i => getWord (fun j => blk (64 * slot + j)) (3 + i)) }

namespace Inode

/-- inode.rs Inode::update: serialize the in-memory copy into its slot of the
inode-table block and write through the transaction. -/
def update (sb : SB) (s : Fstate) (ino : Inode) : Option Fstate :=
  let bno := sb.iblock ino.no
  let buf := Transaction.read s bno
  Transaction.write sb s bno (encodeInodeAt buf (ino.no % IPB) ino)

/-- inode.rs Inode::nth_block.  Returns (return value, state, inode); the
outer none is a panic inside allocation or Transaction::write.  Note the
indirect arm of the source performs its allocations and writes the indirect
block back, then falls through to `None` without returning the entry. -/
def nth_block (sb : SB) (s : Fstate) (ino : Inode) (n : Nat) :
    Option (Option Nat × Fstate × Inode) :=
  if n < NDIRECT then
    if ino.addrs.getD n 0 = 0 then
      match Bitmap.alloc sb s with
      | none => none
      | some (b, s2) => some (some b, s2, { ino with addrs := ino.addrs.set n b })
    else some (some (ino.addrs.getD n 0), s, ino)
  else if n - NDIRECT < NINDIRECT then
    match (if ino.addrs.getD NDIRECT 0 = 0 then
            match Bitmap.alloc sb s with
            | none => none
            | some (b, s2) => some (s2, { ino with addrs := ino.addrs.set NDIRECT b })
          else some (s, ino)) with
    | none => none
    | some (s2, ino2) =>
      let ib := ino2.addrs.getD NDIRECT 0
      let buf := Transaction.read s2 ib
      match (if getWord buf (n - NDIRECT) = 0 then
              match Bitmap.alloc sb s2 with
              | none => none
              | some (b, s3) => some (s3, setWord buf (n - NDIRECT) b)
            else some (s2, buf)) with
      | none => none
      | some (s3, buf2) =>
        match Transaction.write sb s3 ib buf2 with
        | none => none
        | some s4 => some (none, s4, ino2)
  else some (none, s, ino)

/-- The while loop of inode.rs Inode::read, with an explicit structural fuel
(each iteration copies at least one byte, so fuel = requested count always
suffices; running out of fuel cannot happen on the calls the source makes). -/
def readLoop (sb : SB) (fuel : Nat) (s : Fstate) (ino : Inode)
    (cur got n : Nat) (acc : List Nat) : Option (List Nat × Fstate × Inode) :=
  if n ≤ got then some (acc, s, ino)
  else match fuel with
  | 0 => none
  | fuel' + 1 =>
    match nth_block sb s ino (cur / BSIZE) with
    | none => none
    | some (none, _, _) => none
    | some (some bno, s2, ino2) =>
      let buf := Transaction.read s2 bno
      let off := cur % BSIZE
      let m := min (n - got) (BSIZE - off)
      readLoop sb fuel' s2 ino2 (cur + m) (got + m) n
        (acc ++ (List.range m).map (fun i => buf (off + i)))

/-- inode.rs Inode::read. -/
def read (sb : SB) (s : Fstate) (ino : Inode) (offset n : Nat) :
    Option (List Nat × Fstate × Inode) :=
  if ino.size < offset ∨ saturatingAdd offset n ≠ offset + n ∨
      MAXFILESIZE < offset + n then none
  else
    let n2 := if ino.size < offset + n then ino.size - offset else n
    readLoop sb n2 s ino offset 0 n2 []

/-- The bytes the write loop stores into a block: bytes [off, off+m) receive
data[written ..], the rest keeps the previous contents. -/
def writeRange (blk : Block) (off m : Nat) (data : List Nat) (written : Nat) : Block :=
  fun j => if off ≤ j ∧ j < off + m then data.getD (j - off + written) 0 else blk j

/-- The while loop of inode.rs Inode::write, with structural fuel as in
`readLoop`. -/
def writeLoop (sb : SB) (fuel : Nat) (s : Fstate) (ino : Inode)
    (data : List Nat) (cur written : Nat) : Option (Fstate × Inode × Nat) :=
  if data.length ≤ written then some (s, ino, written)
  else match fuel with
  | 0 => none
  | fuel' + 1 =>
    match nth_block sb s ino (cur / BSIZE) with
    | none => none
    | some (none, _, _) => none
    | some (some bno, s2, ino2) =>
      let off := cur % BSIZE
      let m := min (data.length - written) (BSIZE - off)
      match Transaction.write sb s2 bno
          (writeRange (Transaction.read s2 bno) off m data written) with
      | none => none
      | some s3 => writeLoop sb fuel' s3 ino2 data (cur + m) (written + m)

/-- inode.rs Inode::write. -/
def write (sb : SB) (s : Fstate) (ino : Inode) (offset : Nat) (data : List Nat) :
    Option (Nat × Fstate × Inode) :=
  let n := data.length
  if ino.size < offset ∨ saturatingAdd offset n ≠ offset + n ∨
      MAXFILESIZE < offset + n then none
  else
    match writeLoop sb n s ino data offset 0 with
    | none => none
    | some (s2, ino2, written) =>
      if 0 < written ∧ ino.size < offset + written then
        let ino3 := { ino2 with size := offset + written }
        match update sb s2 ino3 with
        | none => none
        | some s3 => some (written, s3, ino3)
      else some (written, s2, ino2)

end Inode

namespace ICache

/-- inode.rs Cache::put (the drop path of the last handle): return immediately
when the external reference count is 0; otherwise lock the inode (loading it
from the inode table when no copy is in memory, with the file_type != none
assertion of Cache::lock modelled as none on failure); the nlink == 0 branch
of the source is an empty stub (its body is the comment "truncate file"), so
no state is modified on any path. -/
def put (sb : SB) (s : Fstate) (refcnt : Nat) (loaded : Option Inode) (no : Nat) :
    Option Fstate :=
  if refcnt = 0 then some s
  else match loaded with
  | some _ => some s
  | none =>
    let d := decodeInodeAt (Transaction.read s (sb.iblock no)) (no % IPB) no
    if d.file_type = 0 then none
    else some s

end ICache

/-! Concrete fixtures: the superblock of testfs.rs (nblocks = 200,
ninodes = 20, nlogs = LOGSIZE, log_start = 2, inode_start = 66,
bmap_start = 69) and small concrete states. -/

/-- The superblock testfs.rs builds. -/
def sbT : SB := ⟨200, 20, 64, 2, 66, 69⟩

/-- An empty in-memory log header. -/
def emptyLh : LogHeader := ⟨0, List.replicate 64 0⟩

/-- A state whose block 80 is an indirect block with first entry 90. -/
def sC4 : Fstate :=
  ⟨fun b => if b = 80 then (fun j => if j = 0 then 90 else 0) else (fun _ => 0), emptyLh⟩

/-- A regular file of 13 blocks (6656 bytes): all 12 direct pointers set and
the indirect pointer at block 80. -/
def inoC4 : Inode := ⟨2, 2, 1, 6656, [100, 101, 102, 103, 104, 105, 106, 107, 108, 109, 110, 111, 80]⟩

/-- Iterated Transaction::write of distinct blocks inside one transaction
(each step writes a zero block; only the header bookkeeping matters). -/
def txnWrites (sb : SB) (s : Fstate) (l : List Nat) : Option Fstate :=
  l.foldlM (fun s b => Transaction.write sb s b (fun _ => 0)) s

/-- A state whose bitmap block (69) marks blocks 0..71 used and all later
blocks free, as after testfs creation plus one extra data block. -/
def sBm : Fstate :=
  ⟨fun b => if b = 69 then (fun j => if j < 9 then 255 else 0) else (fun _ => 0), emptyLh⟩

/-- An inode whose size exceeds MAXFILESIZE by one byte. -/
def inoC10 : Inode := ⟨2, 2, 1, 71681, [0, 0, 0, 0, 0, 0, 0, 0, 0, 0, 0, 0, 0]⟩

/-- A 3-byte regular file whose single data block 71 is preallocated. -/
def inoC10w : Inode := ⟨2, 2, 1, 3, [71, 0, 0, 0, 0, 0, 0, 0, 0, 0, 0, 0, 0]⟩

/-- Claim C2: Cache::put never modifies the filesystem state: on every input
it either panics (the file_type assertion of lock) or returns the state
unchanged — in particular an inode with on-disk nlink = 0 is not truncated,
no data or indirect block is freed in the bitmap, and the on-disk inode is
not reset, contradicting the deferred-truncate claim. -/
theorem icache_put_never_truncates (sb : SB) (s : Fstate) (refcnt : Nat)
    (loaded : Option Inode) (no : Nat) :
    ICache.put sb s refcnt loaded no = some s ∨ ICache.put sb s refcnt loaded no = none := by
  unfold ICache.put
  split
  · exact Or.inl rfl
  · match loaded with
    | some _ => exact Or.inl rfl
    | none =>
      dsimp only
      split
      · exact Or.inr rfl
      · exact Or.inl rfl

/-- Claim C3: for every block index NDIRECT + k (the whole indirect range and
beyond), Inode::nth_block either panics inside allocation or returns None as
its value — it never returns the indirect entry the claim promises, because
the indirect arm of the source falls through without returning it. -/
theorem nth_block_indirect_returns_none (sb : SB) (s : Fstate) (ino : Inode) (k : Nat) :
    (Inode.nth_block sb s ino (NDIRECT + k)).map (fun r => r.1) = some none ∨
      Inode.nth_block sb s ino (NDIRECT + k) = none := by
  unfold Inode.nth_block
  rw [if_neg (by omega : ¬ (NDIRECT + k < NDIRECT))]
  split
  · split
    · exact Or.inr rfl
    · dsimp only
      split
      · exact Or.inr rfl
      · split
        · exact Or.inr rfl
        · exact Or.inl rfl
  · exact Or.inl rfl

/-- Claim C3, concrete evaluation: at block index 12 of a file whose indirect
block 80 holds entry 90, nth_block returns None (value) instead of 90. -/
theorem nth_block_indirect_concrete :
    (Inode.nth_block sbT sC4 inoC4 12).map (fun r => r.1) = some none := by rfl

/-- Claim C4: reading one byte at offset 6144 of a 6656-byte file (offset
within size, no overflow, within MAXFILESIZE, so the read contract requires a
1-byte buffer) panics instead, because nth_block returns None for block
index 12 and Inode::read unwraps it. -/
theorem read_panics_on_indirect_range : Inode.read sbT sC4 inoC4 6144 1 = none := by rfl

/-- Claim C6, counterexample: MAXOPBLOCKS + 1 = 17 block writes to distinct
blocks inside one transaction are all accepted (the header count reaches 17
and no failure occurs), contradicting the claim that the 17th write is
rejected. -/
theorem seventeen_writes_not_rejected :
    (txnWrites sbT ⟨fun _ => (fun _ => 0), emptyLh⟩
        ((List.range 17).map (fun i => 100 + i))).map (fun s => s.lh.n) = some 17 := by
  rfl

/-- Claim C6, amended: the limit Transaction::write actually enforces is the
log capacity: 63 distinct block writes inside one transaction succeed (header
count LOGSIZE - 1 = 63), and a 64th distinct write fails fatally ("too big
transaction") before any commit. -/
theorem txn_write_limit_logsize :
    (txnWrites sbT ⟨fun _ => (fun _ => 0), emptyLh⟩
        ((List.range 63).map (fun i => 100 + i))).map (fun s => s.lh.n) = some 63 ∧
      txnWrites sbT ⟨fun _ => (fun _ => 0), emptyLh⟩
        ((List.range 64).map (fun i => 100 + i)) = none := by
  exact ⟨rfl, rfl⟩

/-- Claim C7: on the filesystem testfs.rs builds (nblocks = 200), block 72
lies in the data range and its bitmap bit is 0 (free), yet Bitmap::alloc
panics "no free block": its scan loop runs b over 0 .. nblocks / BPB, which is
empty for any image smaller than BPB = 4096 blocks.  (Bit 71 shown set for
contrast: the bitmap is well formed.) -/
theorem bitmap_alloc_misses_free_block :
    Bitmap.alloc sbT sBm = none ∧ Bitmap.bitClear sbT sBm 71 = false ∧
      Bitmap.bitClear sbT sBm 72 = true ∧ 72 < sbT.nblocks := by
  exact ⟨rfl, rfl, rfl, by decide⟩

/-- Claim C10, counterexample: for an inode of size MAXFILESIZE + 1 = 71681
and offset = size (so offset ≤ size), the empty write returns none (EIO path)
rather than the successful count 0 the claim promises for every
offset ≤ size. -/
theorem zero_write_fails_beyond_maxfilesize :
    Inode.write sbT sC4 inoC10 71681 [] = none := by rfl

/-- Claim C10, amended: for every offset that is at most both the inode size
and MAXFILESIZE, an empty write returns the successful count 0 and leaves the
whole state untouched — the inode (size, addrs) and every cached block are
unchanged and nothing is recorded in the log header. -/
theorem zero_write_noop (sb : SB) (s : Fstate) (ino : Inode) (offset : Nat)
    (h1 : offset ≤ ino.size) (h2 : offset ≤ MAXFILESIZE) :
    Inode.write sb s ino offset [] = some (0, s, ino) := by
  have hmax : MAXFILESIZE = 71680 := by decide
  unfold Inode.write
  rw [if_neg]
  · unfold Inode.writeLoop
    simp
  · push_neg
    refine ⟨by omega, ?_, by simpa using by omega⟩
    unfold saturatingAdd
    simp only [List.length_nil]
    omega

/-- Witness for `zero_write_noop` at a concrete input. -/
theorem zero_write_noop_witness :
    Inode.write sbT sC4 inoC10w 3 [] = some (0, sC4, inoC10w) :=
  zero_write_noop sbT sC4 inoC10w 3 (by decide) (by decide)

namespace LogCtl

/-- logging.rs LogState: the committing flag and the outstanding count guarded
by the state lock. -/
structure LogState where
  committing : Bool
  outstanding : Nat
  deriving DecidableEq

/-- The transitions of the log state under begin_txn / end_txn: begin proceeds
only when not committing and one more transaction fits the capacity quota;
end decrements outstanding and raises committing exactly when it reaches 0;
the commit epilogue clears committing. -/
inductive Step (size : Nat) : LogState → LogState → Prop
  | beginTxn (s : LogState) : s.committing = false →
      (s.outstanding + 1) * MAXOPBLOCKS ≤ size →
      Step size s ⟨false, s.outstanding + 1⟩
  | endTxn (s : LogState) : s.committing = false → 0 < s.outstanding →
      Step size s ⟨s.outstanding == 1, s.outstanding - 1⟩
  | commitDone (s : LogState) : s.committing = true →
      Step size s ⟨false, s.outstanding⟩

/-- States reachable from the initial log state (not committing, no
outstanding transactions). -/
inductive Reach (size : Nat) : LogState → Prop
  | init : Reach size ⟨false, 0⟩
  | step {s t : LogState} : Reach size s → Step size s t → Reach size t

end LogCtl

/-- Claim C9: in every reachable log state with log size LOGSIZE = 64,
outstanding * MAXOPBLOCKS ≤ LOGSIZE, so at most 4 transactions are
outstanding at once. -/
theorem log_outstanding_bound (s : LogCtl.LogState) (h : LogCtl.Reach 64 s) :
    s.outstanding * MAXOPBLOCKS ≤ 64 ∧ s.outstanding ≤ 4 := by
  have key : s.outstanding * MAXOPBLOCKS ≤ 64 := by
    induction h with
    | init => simp
    | step hr hs ih =>
      cases hs with
      | beginTxn hc hcap => simpa using hcap
      | endTxn hc hp => simp only [MAXOPBLOCKS] at ih ⊢; omega
      | commitDone hc => exact ih
  refine ⟨key, ?_⟩
  simp only [MAXOPBLOCKS] at key
  omega

/-- Witness for `log_outstanding_bound`: the state after one begin_txn. -/
theorem log_outstanding_bound_witness :
    (⟨false, 1⟩ : LogCtl.LogState).outstanding * MAXOPBLOCKS ≤ 64 ∧
      (⟨false, 1⟩ : LogCtl.LogState).outstanding ≤ 4 :=
  log_outstanding_bound ⟨false, 1⟩
    (LogCtl.Reach.step LogCtl.Reach.init
      (LogCtl.Step.beginTxn ⟨false, 0⟩ rfl (by decide)))

namespace BufCache

/-- buffer.rs Buf together with its cache bookkeeping: contents, the
VALID/DIRTY flags, and the external reference count (strong_count - 1). -/
structure Entry where
  data : Block
  valid : Bool
  dirty : Bool
  refcnt : Nat

/-- buffer.rs: BCACHE = Cache::new(256). -/
def CAPACITY : Nat := 256

/-- Buf::new as inserted by Cache::get: flags empty (valid = false,
dirty = false); the returned handle is the one external reference. -/
def newEntry : Entry := { data := fun _ => 0, valid := false, dirty := false, refcnt := 1 }

/-- buffer.rs Cache::get eviction scan over the map (modelled as an
association list in iteration order): collect keys whose entry has
refcnt = 0 and DIRTY clear, breaking once enough victims are found
(`cache.len() - free_nos.len() < capacity`); `len` is the entry count at
scan start and `cnt` the number collected so far. -/
def victims : List (Nat × Entry) → Nat → Nat → List Nat
  | [], _, _ => []
  | (k, e) :: rest, len, cnt =>
    if e.refcnt = 0 ∧ e.dirty = false then
      if len - (cnt + 1) < CAPACITY then [k]
      else k :: victims rest len (cnt + 1)
    else victims rest len cnt

/-- buffer.rs Cache::get: a hit clones the shared handle (one more external
reference); a miss at capacity evicts the victims and returns none ("full")
when there are none; the fresh entry is inserted with valid = false. -/
def get (c : List (Nat × Entry)) (bno : Nat) : Option (List (Nat × Entry)) :=
  match c.lookup bno with
  | some _ =>
    some (c.map (fun p => if p.1 = bno then (p.1, { p.2 with refcnt := p.2.refcnt + 1 }) else p))
  | none =>
    if CAPACITY ≤ c.length then
      let vs := victims c c.length 0
      if vs = [] then none
      else some ((bno, newEntry) :: c.filter (fun p => !(vs.contains p.1)))
    else some ((bno, newEntry) :: c)

/-- An entry the eviction scan must skip: externally referenced or dirty. -/
def Pinned (e : Entry) : Prop := e.refcnt ≠ 0 ∨ e.dirty = true

instance (e : Entry) : Decidable (Pinned e) := by unfold Pinned; infer_instance

/-- A fully pinned entry (dirty, as produced by pin). -/
def pinnedE : Entry := { data := fun _ => 0, valid := true, dirty := true, refcnt := 0 }

/-- A clean, unreferenced entry. -/
def cleanE : Entry := { data := fun _ => 0, valid := true, dirty := false, refcnt := 0 }

theorem victims_eq_nil_iff (c : List (Nat × Entry)) (len cnt : Nat) :
    victims c len cnt = [] ↔ ∀ p ∈ c, Pinned p.2 := by
  induction c generalizing cnt with
  | nil => simp [victims]
  | cons hd tl ih =>
    obtain ⟨k, e⟩ := hd
    by_cases hfree : e.refcnt = 0 ∧ e.dirty = false
    · have hnp : ¬ Pinned e := by
        unfold Pinned
        push_neg
        exact ⟨hfree.1, by simp [hfree.2]⟩
      simp only [victims, if_pos hfree]
      constructor
      · intro h
        exfalso
        by_cases hbrk : len - (cnt + 1) < CAPACITY <;> simp [hbrk] at h
      · intro h
        exact absurd (h (k, e) (by simp)) hnp
    · have hp : Pinned e := by
        unfold Pinned
        rcases Decidable.not_and_iff_or_not.mp hfree with h | h
        · exact Or.inl h
        · exact Or.inr (by simpa using h)
      simp only [victims, if_neg hfree, ih]
      constructor
      · intro h p hp2
        rcases List.mem_cons.mp hp2 with rfl | hmem
        · exact hp
        · exact h p hmem
      · intro h p hmem
        exact h p (List.mem_cons_of_mem _ hmem)

theorem victims_mem_clean (c : List (Nat × Entry)) (len cnt k : Nat)
    (h : k ∈ victims c len cnt) :
    ∃ e, (k, e) ∈ c ∧ e.refcnt = 0 ∧ e.dirty = false := by
  induction c generalizing cnt with
  | nil => simp [victims] at h
  | cons hd tl ih =>
    obtain ⟨k2, e2⟩ := hd
    by_cases hfree : e2.refcnt = 0 ∧ e2.dirty = false
    · simp only [victims, if_pos hfree] at h
      by_cases hbrk : len - (cnt + 1) < CAPACITY
      · rw [if_pos hbrk] at h
        simp at h
        exact ⟨e2, by simp [h], hfree⟩
      · rw [if_neg hbrk] at h
        rcases List.mem_cons.mp h with rfl | hmem
        · exact ⟨e2, by simp, hfree⟩
        · obtain ⟨e, he, hc⟩ := ih _ hmem
          exact ⟨e, List.mem_cons_of_mem _ he, hc⟩
    · simp only [victims, if_neg hfree] at h
      obtain ⟨e, he, hc⟩ := ih _ h
      exact ⟨e, List.mem_cons_of_mem _ he, hc⟩

theorem keys_nodup_val_unique (c : List (Nat × Entry)) (hnd : (c.map Prod.fst).Nodup)
    (k : Nat) (a b : Entry) (ha : (k, a) ∈ c) (hb : (k, b) ∈ c) : a = b := by
  induction c with
  | nil => simp at ha
  | cons hd tl ih =>
    obtain ⟨k2, e2⟩ := hd
    simp only [List.map_cons, List.nodup_cons] at hnd
    rcases List.mem_cons.mp ha with h1 | h1 <;> rcases List.mem_cons.mp hb with h2 | h2
    · rw [Prod.mk.injEq] at h1 h2
      rw [h1.2, h2.2]
    · exfalso
      rw [Prod.mk.injEq] at h1
      exact hnd.1 (h1.1 ▸ (List.mem_map_of_mem Prod.fst h2))
    · exfalso
      rw [Prod.mk.injEq] at h2
      exact hnd.1 (h2.1 ▸ (List.mem_map_of_mem Prod.fst h1))
    · exact ih hnd.2 h1 h2

/-- A cache with 256 entries, every one pinned (dirty). -/
def pinned256 : List (Nat × Entry) := (List.range 256).map (fun i => (i, pinnedE))

/-- A two-entry cache: one pinned entry and one clean entry. -/
def smallCache : List (Nat × Entry) := [(5, pinnedE), (6, cleanE)]

end BufCache

set_option maxRecDepth 8000 in
/-- Claim C8: Cache::get of an uncached block at capacity returns full exactly
when every cached entry is externally referenced or dirty; whenever get
succeeds, no externally referenced or dirty entry has been evicted (its key is
still present); the newly allocated slot is inserted with valid = false
(newEntry); and concretely, with 256 pinned entries the 257th get of a new
block returns full. -/
theorem bcache_get_full_iff_all_pinned (c : List (Nat × BufCache.Entry)) (bno : Nat) :
    (c.lookup bno = none → BufCache.CAPACITY ≤ c.length →
      (BufCache.get c bno = none ↔ ∀ p ∈ c, BufCache.Pinned p.2)) ∧
    (∀ c', BufCache.get c bno = some c' → (c.map Prod.fst).Nodup →
      ∀ p ∈ c, BufCache.Pinned p.2 → p.1 ∈ c'.map Prod.fst) ∧
    (∀ c', c.lookup bno = none → BufCache.get c bno = some c' →
      ∃ rest, c' = (bno, BufCache.newEntry) :: rest) ∧
    BufCache.get BufCache.pinned256 300 = none := by
  refine ⟨?_, ?_, ?_, rfl⟩
  · intro hl hcap
    unfold BufCache.get
    rw [hl]
    simp only [if_pos hcap]
    by_cases hvs : BufCache.victims c c.length 0 = []
    · rw [if_pos hvs]
      exact iff_of_true rfl ((BufCache.victims_eq_nil_iff c c.length 0).mp hvs)
    · rw [if_neg hvs]
      refine iff_of_false (by simp) (fun hall => hvs ?_)
      exact (BufCache.victims_eq_nil_iff c c.length 0).mpr hall
  · intro c' hget hnd p hp hpin
    rcases hl : c.lookup bno with _ | e
    · unfold BufCache.get at hget
      rw [hl] at hget
      by_cases hcap : BufCache.CAPACITY ≤ c.length
      · rw [if_pos hcap] at hget
        by_cases hvs : BufCache.victims c c.length 0 = []
        · rw [if_pos hvs] at hget
          exact absurd hget (by simp)
        · rw [if_neg hvs] at hget
          have hc' : c' = (bno, BufCache.newEntry) ::
              c.filter (fun p => !((BufCache.victims c c.length 0).contains p.1)) := by
            have := Option.some.inj hget
            exact this.symm
          subst hc'
          have hnotvic : (BufCache.victims c c.length 0).contains p.1 = false := by
            by_contra hcontra
            have hmemv : p.1 ∈ BufCache.victims c c.length 0 := by
              have : (BufCache.victims c c.length 0).contains p.1 = true := by
                revert hcontra
                cases (BufCache.victims c c.length 0).contains p.1 <;> simp
              exact List.mem_of_elem_eq_true this
            obtain ⟨e2, he2, hr, hd⟩ :=
              BufCache.victims_mem_clean c c.length 0 p.1 hmemv
            have : e2 = p.2 := BufCache.keys_nodup_val_unique c hnd p.1 e2 p.2 he2 (by
              obtain ⟨p1, p2⟩ := p
              exact hp)
            subst this
            rcases hpin with h | h
            · exact h hr
            · rw [hd] at h
              exact Bool.noConfusion h
          have hinf : p ∈ c.filter
              (fun p => !((BufCache.victims c c.length 0).contains p.1)) :=
            List.mem_filter.mpr ⟨hp, by rw [hnotvic]; rfl⟩
          simp only [List.map_cons]
          exact List.mem_cons_of_mem _ (List.mem_map_of_mem Prod.fst hinf)
      · rw [if_neg hcap] at hget
        have hc' : c' = (bno, BufCache.newEntry) :: c := (Option.some.inj hget).symm
        subst hc'
        simp only [List.map_cons]
        exact List.mem_cons_of_mem _ (List.mem_map_of_mem Prod.fst hp)
    · unfold BufCache.get at hget
      rw [hl] at hget
      have hc' : c' = c.map (fun p =>
          if p.1 = bno then (p.1, { p.2 with refcnt := p.2.refcnt + 1 }) else p) :=
        (Option.some.inj hget).symm
      subst hc'
      have : (c.map (fun p =>
          if p.1 = bno then (p.1, { p.2 with refcnt := p.2.refcnt + 1 }) else p)).map
            Prod.fst = c.map Prod.fst := by
        rw [List.map_map]
        refine List.map_congr_left (fun a _ => ?_)
        by_cases ha : a.1 = bno <;> simp [ha]
      rw [this]
      exact List.mem_map_of_mem Prod.fst hp
  · intro c' hl hget
    unfold BufCache.get at hget
    rw [hl] at hget
    by_cases hcap : BufCache.CAPACITY ≤ c.length
    · rw [if_pos hcap] at hget
      by_cases hvs : BufCache.victims c c.length 0 = []
      · rw [if_pos hvs] at hget
        exact absurd hget (by simp)
      · rw [if_neg hvs] at hget
        exact ⟨_, (Option.some.inj hget).symm⟩
    · rw [if_neg hcap] at hget
      exact ⟨_, (Option.some.inj hget).symm⟩

set_option maxRecDepth 8000 in
/-- Witness for bcache_get_full_iff_all_pinned: the full-cache iff at 256
pinned entries, and eviction safety plus fresh-slot shape on a small cache. -/
theorem bcache_get_full_iff_all_pinned_witness :
    (BufCache.get BufCache.pinned256 300 = none ↔
      ∀ p ∈ BufCache.pinned256, BufCache.Pinned p.2) ∧
    (5 : Nat) ∈ (((300, BufCache.newEntry) :: BufCache.smallCache).map Prod.fst) ∧
    (∃ rest, ((300, BufCache.newEntry) :: BufCache.smallCache) =
      (300, BufCache.newEntry) :: rest) :=
  ⟨(bcache_get_full_iff_all_pinned BufCache.pinned256 300).1 rfl (by decide),
   (bcache_get_full_iff_all_pinned BufCache.smallCache 300).2.1
     ((300, BufCache.newEntry) :: BufCache.smallCache) rfl (by decide)
     (5, BufCache.pinnedE) (by simp [BufCache.smallCache]) (Or.inr rfl),
   (bcache_get_full_iff_all_pinned BufCache.smallCache 300).2.2.1
     ((300, BufCache.newEntry) :: BufCache.smallCache) rfl rfl⟩

namespace Log

/-- The block layer under the log: the persisted disk and the buffer cache
(none = absent or invalid entry). -/
structure DState where
  disk : Nat → Block
  cache : Nat → Option Block

/-- BCACHE.read as the commit/recover path sees it: the cached block if
present, else the on-disk block (loading a clean copy into the cache changes
no observable read, so the state is left as is). -/
def bread (s : DState) (b : Nat) : Block := (s.cache b).getD (s.disk b)

/-- BCACHE.write on a locked buffer: the device receives the data and the
cache entry (the locked buffer itself) keeps it. -/
def bwrite (s : DState) (b : Nat) (v : Block) : DState :=
  ⟨upd s.disk b v, upd s.cache b (some v)⟩

/-- A crash: the disk survives, all cached state is lost. -/
def crash (s : DState) : DState := ⟨s.disk, fun _ => none⟩

/-- Byte j of the on-disk serialization of a LogHeader (fs.rs repr(C): n u32
followed by LOGSIZE u32 block numbers), as written by Logging::write_head. -/
def encodeHeader (lh : LogHeader) : Block :=
  fun j => if j < 4 then lh.n / 256 ^ j % 256
    else lh.blocks.getD ((j - 4) / 4) 0 / 256 ^ ((j - 4) % 4) % 256

/-- Decoding of a header block (from_block in Logging::read_head). -/
def decodeHeader (b : Block) : LogHeader :=
  ⟨getWord b 0, (List.range LOGSIZE).map (fun i => getWord b (i + 1))⟩

/-- logging.rs Logging::write_head. -/
def write_head (start : Nat) (lh : LogHeader) (s : DState) : DState :=
  bwrite s start (encodeHeader lh)

/-- logging.rs Logging::write_log: copy each logged block from the cache into
its log body slot log_start + i + 1 and write it out. -/
def write_log (start : Nat) (lh : LogHeader) (s : DState) : DState :=
  (List.range lh.n).foldl
    (fun s i => bwrite s (start + 1 + i) (bread s (lh.blocks.getD i 0))) s

/-- One step of logging.rs Logging::install_txn: copy log body block i to its
destination block. -/
def installStep (start : Nat) (lh : LogHeader) (s : DState) (i : Nat) : DState :=
  bwrite s (lh.blocks.getD i 0) (bread s (start + 1 + i))

/-- Logging::install_txn restricted to the step indices in `l`. -/
def installOver (start : Nat) (lh : LogHeader) (l : List Nat) (s : DState) : DState :=
  l.foldl (installStep start lh) s

/-- logging.rs Logging::install_txn. -/
def install_txn (start : Nat) (lh : LogHeader) (s : DState) : DState :=
  installOver start lh (List.range lh.n) s

/-- logging.rs Logging::recover: read the head, install all logged blocks,
zero the count, rewrite the head. -/
def recover (start : Nat) (s : DState) : DState :=
  write_head start ⟨0, (decodeHeader (bread s start)).blocks⟩
    (install_txn start (decodeHeader (bread s start)) s)

/-- logging.rs Transaction::commit: for a nonempty header, write the log body,
persist the header (the commit point), install, zero and rewrite the header. -/
def commitTxn (start : Nat) (lh : LogHeader) (s : DState) : DState :=
  if 0 < lh.n then
    write_head start ⟨0, lh.blocks⟩
      (install_txn start lh (write_head start lh (write_log start lh s)))
  else s

/-- The state at the commit point: log body written, header persisted (end of
step (b) of the grouped commit). -/
def commitPointState (start : Nat) (lh : LogHeader) (s : DState) : DState :=
  write_head start lh (write_log start lh s)

/-- A client write through the transaction proxy: the locked buffer (cache
entry) is modified and pinned; nothing reaches the disk before commit. -/
def cwrite (s : DState) (b : Nat) (v : Block) : DState :=
  ⟨s.disk, upd s.cache b (some v)⟩

/-- A committed transaction: the header its commit uses (which blocks were
logged) and the data each destination received. -/
structure Txn where
  lh : LogHeader
  data : Nat → Block

/-- The buffer-cache mutations a transaction performs before its commit. -/
def applyCacheWrites (t : Txn) (s : DState) : DState :=
  (List.range t.lh.n).foldl
    (fun s i => cwrite s (t.lh.blocks.getD i 0) (t.data (t.lh.blocks.getD i 0))) s

/-- Execute one transaction to completion: mutate the cache, then run the
grouped commit with its header. -/
def doTxn (start : Nat) (t : Txn) (s : DState) : DState :=
  commitTxn start t.lh (applyCacheWrites t s)

/-- Execute a list of transactions in order. -/
def runTxns (start : Nat) (ts : List Txn) (s : DState) : DState :=
  ts.foldl (fun s t => doTxn start t s) s

/-- Crash during the commit of `t` after the commit point, with `j` install
steps already performed (j = 0 is the commit point itself); a transaction with
an empty header performs no disk writes at all. -/
def midCrashState (start : Nat) (t : Txn) (j : Nat) (s : DState) : DState :=
  if 0 < t.lh.n then
    installOver start t.lh (List.range (min j t.lh.n))
      (commitPointState start t.lh (applyCacheWrites t s))
  else applyCacheWrites t s

/-- Well-formedness of a header as maintained by Transaction::write: LOGSIZE
u32 entries, count within capacity, every logged destination outside the log
region [start, start + n]. -/
def WfHdr (start : Nat) (lh : LogHeader) : Prop :=
  lh.blocks.length = LOGSIZE ∧ (∀ v ∈ lh.blocks, v < 2 ^ 32) ∧ lh.n ≤ LOGSIZE ∧
    (∀ i < lh.n, ¬ (start ≤ lh.blocks.getD i 0 ∧ lh.blocks.getD i 0 ≤ start + lh.n))

/-- The on-disk header block holds a well-formed encoded header with count 0
(the state every mount and every completed commit leaves behind). -/
def HdrInv (start : Nat) (s : DState) : Prop :=
  ∃ lh0 : LogHeader, lh0.blocks.length = LOGSIZE ∧ (∀ v ∈ lh0.blocks, v < 2 ^ 32) ∧
    lh0.n = 0 ∧ s.disk start = encodeHeader lh0

/-- Cache and disk agree at block b (reads hit the persisted value). -/
def Agree (s : DState) (b : Nat) : Prop := bread s b = s.disk b

theorem bread_bwrite (s : DState) (b : Nat) (v : Block) (b' : Nat) :
    bread (bwrite s b v) b' = if b' = b then v else bread s b' := by
  unfold bread bwrite upd
  by_cases h : b' = b <;> simp [h]

theorem disk_bwrite (s : DState) (b : Nat) (v : Block) (b' : Nat) :
    (bwrite s b v).disk b' = if b' = b then v else s.disk b' := rfl

theorem bread_crash (s : DState) (b : Nat) : bread (crash s) b = s.disk b := rfl

theorem agree_bwrite (s : DState) (b : Nat) (v : Block) (b' : Nat)
    (h : b' = b ∨ Agree s b') : Agree (bwrite s b v) b' := by
  unfold Agree
  rw [bread_bwrite, disk_bwrite]
  rcases h with rfl | h
  · simp
  · by_cases hb : b' = b
    · simp [hb]
    · simp only [if_neg hb]
      exact h

theorem getD_lt_of_forall {l : List Nat} (h : ∀ v ∈ l, v < 2 ^ 32) (i : Nat)
    (hi : i < l.length) : l.getD i 0 < 2 ^ 32 := by
  rw [List.getD_eq_getElem l 0 hi]
  exact h _ (List.getElem_mem hi)

theorem decode_encode (lh : LogHeader) (hlen : lh.blocks.length = LOGSIZE)
    (hb : ∀ v ∈ lh.blocks, v < 2 ^ 32) (hn : lh.n < 2 ^ 32) :
    decodeHeader (encodeHeader lh) = lh := by
  obtain ⟨n, blocks⟩ := lh
  simp only at hlen hb hn
  unfold decodeHeader
  simp only [LogHeader.mk.injEq]
  constructor
  · simp only [getWord, encodeHeader]
    norm_num
    omega
  · refine List.ext_getElem ?_ ?_
    · simpa using hlen.symm
    · intro i h1 h2
      simp only [List.getElem_map, List.getElem_range]
      have hil : i < blocks.length := h2
      have hv : blocks.getD i 0 < 2 ^ 32 := getD_lt_of_forall hb i hil
      simp only [getWord, encodeHeader]
      rw [if_neg (by omega), if_neg (by omega), if_neg (by omega), if_neg (by omega)]
      have e0 : (4 * (i + 1) - 4) / 4 = i := by omega
      have e1 : (4 * (i + 1) + 1 - 4) / 4 = i := by omega
      have e2 : (4 * (i + 1) + 2 - 4) / 4 = i := by omega
      have e3 : (4 * (i + 1) + 3 - 4) / 4 = i := by omega
      have m0 : (4 * (i + 1) - 4) % 4 = 0 := by omega
      have m1 : (4 * (i + 1) + 1 - 4) % 4 = 1 := by omega
      have m2 : (4 * (i + 1) + 2 - 4) % 4 = 2 := by omega
      have m3 : (4 * (i + 1) + 3 - 4) % 4 = 3 := by omega
      rw [e0, e1, e2, e3, m0, m1, m2, m3]
      rw [List.getD_eq_getElem blocks 0 hil] at hv ⊢
      norm_num
      omega

theorem installOver_disk_not_dest (start : Nat) (lh : LogHeader) :
    ∀ (l : List Nat) (s : DState) (b : Nat),
      (∀ i ∈ l, lh.blocks.getD i 0 ≠ b) → (installOver start lh l s).disk b = s.disk b := by
  intro l
  induction l with
  | nil => intro s b _; rfl
  | cons i l' ih =>
    intro s b hb
    show (installOver start lh l' (installStep start lh s i)).disk b = s.disk b
    rw [ih _ _ (fun i2 h2 => hb i2 (List.mem_cons_of_mem _ h2))]
    show (bwrite s _ _).disk b = s.disk b
    rw [disk_bwrite, if_neg]
    intro hcontra
    exact hb i (List.mem_cons_self _ _) hcontra.symm

theorem write_log_agree (start : Nat) (lh : LogHeader) :
    ∀ (l : List Nat) (s : DState) (b : Nat),
      ((∃ i ∈ l, start + 1 + i = b) ∨ Agree s b) →
      Agree ((l.foldl (fun s i => bwrite s (start + 1 + i) (bread s (lh.blocks.getD i 0)))) s) b := by
  intro l
  induction l with
  | nil =>
    intro s b h
    rcases h with ⟨i, hi, _⟩ | h
    · simp at hi
    · exact h
  | cons i l' ih =>
    intro s b h
    show Agree (l'.foldl _ (bwrite s (start + 1 + i) (bread s (lh.blocks.getD i 0)))) b
    rcases h with ⟨i2, hi2, hb⟩ | h
    · rcases List.mem_cons.mp hi2 with rfl | hmem
      · exact ih _ _ (Or.inr (agree_bwrite _ _ _ _ (Or.inl hb.symm)))
      · exact ih _ _ (Or.inl ⟨i2, hmem, hb⟩)
    · exact ih _ _ (Or.inr (agree_bwrite _ _ _ _ (Or.inr h)))

/-- After the commit point every block of the log region [start, start + n]
reads the same from the cache and from the disk. -/
theorem commitPoint_agree (start : Nat) (lh : LogHeader) (s : DState) (b : Nat)
    (h1 : start ≤ b) (h2 : b ≤ start + lh.n) :
    Agree (commitPointState start lh s) b := by
  unfold commitPointState write_head
  by_cases hb : b = start
  · subst hb
    exact agree_bwrite _ _ _ _ (Or.inl rfl)
  · refine agree_bwrite _ _ _ _ (Or.inr ?_)
    unfold write_log
    exact write_log_agree start lh _ s b (Or.inl ⟨b - start - 1, by
      refine ⟨List.mem_range.mpr (by omega), by omega⟩⟩)

/-- Running the same suffix of install steps on two states whose log-region
reads agree and whose disks agree outside the remaining destinations yields
equal disks. -/
theorem installOver_bisim (start : Nat) (lh : LogHeader)
    (hdisj : ∀ i < lh.n,
      ¬ (start ≤ lh.blocks.getD i 0 ∧ lh.blocks.getD i 0 ≤ start + lh.n)) :
    ∀ (l : List Nat) (s t : DState),
      (∀ i ∈ l, i < lh.n) →
      (∀ b, start ≤ b → b ≤ start + lh.n → bread s b = bread t b) →
      (∀ b, (∀ i ∈ l, lh.blocks.getD i 0 ≠ b) → s.disk b = t.disk b) →
      (installOver start lh l s).disk = (installOver start lh l t).disk := by
  intro l
  induction l with
  | nil =>
    intro s t _ _ hdisk
    funext b
    exact hdisk b (by simp)
  | cons i l' ih =>
    intro s t hmem hregion hdisk
    have hin : i < lh.n := hmem i (List.mem_cons_self _ _)
    have hdest := hdisj i hin
    have hval : bread s (start + 1 + i) = bread t (start + 1 + i) :=
      hregion _ (by omega) (by omega)
    show (installOver start lh l' (installStep start lh s i)).disk =
      (installOver start lh l' (installStep start lh t i)).disk
    refine ih (installStep start lh s i) (installStep start lh t i)
      (fun i2 h2 => hmem i2 (List.mem_cons_of_mem _ h2)) ?_ ?_
    · intro b hb1 hb2
      unfold installStep
      rw [bread_bwrite, bread_bwrite, hval]
      have : b ≠ lh.blocks.getD i 0 := by
        intro hcontra
        exact hdest (by omega)
      rw [if_neg this, if_neg this]
      exact hregion b hb1 hb2
    · intro b hb
      unfold installStep
      rw [disk_bwrite, disk_bwrite, hval]
      by_cases hbd : b = lh.blocks.getD i 0
      · rw [if_pos hbd, if_pos hbd]
      · rw [if_neg hbd, if_neg hbd]
        refine hdisk b (fun i2 h2 => ?_)
        rcases List.mem_cons.mp h2 with rfl | h2
        · exact fun hc => hbd hc.symm
        · exact hb i2 h2

/-- Part (a) of the crash-atomicity argument: recovery after a crash at the
commit point, or after any prefix of the install steps that follow it,
reproduces exactly the disk of the completed commit. -/
theorem crash_after_commit_point (start : Nat) (lh : LogHeader) (s : DState) (j : Nat)
    (hwf : WfHdr start lh) (hn : 0 < lh.n) (hj : j ≤ lh.n) :
    (recover start (crash (installOver start lh (List.range j)
      (commitPointState start lh s)))).disk = (commitTxn start lh s).disk := by
  obtain ⟨hlen, hb, hcap, hdisj⟩ := hwf
  set CP := commitPointState start lh s with hCP
  set S3 := installOver start lh (List.range j) CP with hS3
  have hCPstart : CP.disk start = encodeHeader lh := by
    rw [hCP]
    unfold commitPointState write_head
    rw [disk_bwrite, if_pos rfl]
  have hS3start : S3.disk start = encodeHeader lh := by
    rw [hS3, installOver_disk_not_dest start lh _ _ _ (fun i hi hcontra =>
      hdisj i (by have := List.mem_range.mp hi; omega)
        (by rw [hcontra]; exact ⟨Nat.le_refl _, Nat.le_add_right _ _⟩)), hCPstart]
  have hdec : decodeHeader (bread (crash S3) start) = lh := by
    rw [bread_crash, hS3start]
    exact decode_encode lh hlen hb (by
      have hls : LOGSIZE = 64 := rfl
      omega)
  unfold recover
  rw [hdec]
  unfold commitTxn
  rw [if_pos hn]
  have hinstall : (install_txn start lh (crash S3)).disk = (install_txn start lh CP).disk := by
    unfold install_txn
    refine installOver_bisim start lh hdisj _ _ _ (fun i hi => List.mem_range.mp hi) ?_ ?_
    · intro b hb1 hb2
      rw [bread_crash]
      have h1 : S3.disk b = CP.disk b := by
        rw [hS3]
        refine installOver_disk_not_dest start lh _ _ _ (fun i hi hcontra => ?_)
        exact hdisj i (by have := List.mem_range.mp hi; omega) (hcontra ▸ ⟨hb1, hb2⟩)
      rw [h1]
      exact (commitPoint_agree start lh s b hb1 hb2).symm
    · intro b hbav
      show S3.disk b = CP.disk b
      rw [hS3]
      exact installOver_disk_not_dest start lh _ _ _ (fun i hi =>
        hbav i (List.mem_range.mpr (by have := List.mem_range.mp hi; omega)))
  show (write_head start ⟨0, lh.blocks⟩ (install_txn start lh (crash S3))).disk =
    (write_head start ⟨0, lh.blocks⟩ (install_txn start lh CP)).disk
  funext b
  unfold write_head
  rw [disk_bwrite, disk_bwrite, hinstall]

/-- Recovery on a state whose on-disk header is a well-formed zero-count
header (the state after every completed commit and after mkfs) leaves the
disk unchanged. -/
theorem recover_noop (start : Nat) (s : DState) (h : HdrInv start s) :
    (recover start (crash s)).disk = s.disk := by
  obtain ⟨⟨n0, blk0⟩, hlen, hb, hn0, henc⟩ := h
  simp only at hlen hb hn0 henc
  subst hn0
  have hdec : decodeHeader (bread (crash s) start) = ⟨0, blk0⟩ := by
    rw [bread_crash, henc]
    exact decode_encode ⟨0, blk0⟩ hlen hb (by norm_num)
  unfold recover
  rw [hdec]
  show (write_head start ⟨0, blk0⟩ (installOver start ⟨0, blk0⟩ (List.range 0) (crash s))).disk
    = s.disk
  show (write_head start ⟨0, blk0⟩ (crash s)).disk = s.disk
  funext b
  unfold write_head
  rw [disk_bwrite]
  by_cases hbs : b = start
  · subst hbs
    rw [if_pos rfl]
    exact henc.symm
  · rw [if_neg hbs]
    rfl

theorem cwrites_disk (t : Txn) : ∀ (l : List Nat) (s : DState),
    (l.foldl (fun s i =>
      cwrite s (t.lh.blocks.getD i 0) (t.data (t.lh.blocks.getD i 0))) s).disk = s.disk := by
  intro l
  induction l with
  | nil => intro s; rfl
  | cons i l' ih => intro s; rw [List.foldl_cons, ih]; rfl

theorem applyCacheWrites_disk (t : Txn) (s : DState) :
    (applyCacheWrites t s).disk = s.disk := cwrites_disk t _ s

theorem commitTxn_disk_start (start : Nat) (lh : LogHeader) (s : DState) (hn : 0 < lh.n) :
    (commitTxn start lh s).disk start = encodeHeader ⟨0, lh.blocks⟩ := by
  unfold commitTxn
  rw [if_pos hn]
  unfold write_head
  rw [disk_bwrite, if_pos rfl]

theorem HdrInv_doTxn (start : Nat) (t : Txn) (s : DState)
    (hwf : WfHdr start t.lh) (h : HdrInv start s) : HdrInv start (doTxn start t s) := by
  obtain ⟨hlen, hb, _, _⟩ := hwf
  by_cases hn : 0 < t.lh.n
  · exact ⟨⟨0, t.lh.blocks⟩, hlen, hb, rfl, commitTxn_disk_start start t.lh _ hn⟩
  · obtain ⟨lh0, hlen0, hb0, hn0, henc0⟩ := h
    refine ⟨lh0, hlen0, hb0, hn0, ?_⟩
    unfold doTxn commitTxn
    rw [if_neg hn, applyCacheWrites_disk]
    exact henc0

theorem HdrInv_runTxns (start : Nat) : ∀ (ts : List Txn) (s : DState),
    HdrInv start s → (∀ t ∈ ts, WfHdr start t.lh) →
    HdrInv start (runTxns start ts s) := by
  intro ts
  induction ts with
  | nil => intro s h _; exact h
  | cons t ts' ih =>
    intro s h hwf
    show HdrInv start (runTxns start ts' (doTxn start t s))
    exact ih _ (HdrInv_doTxn start t s (hwf t (List.mem_cons_self _ _)) h)
      (fun t2 h2 => hwf t2 (List.mem_cons_of_mem _ h2))

end Log

/-- Claim C1: crash atomicity of the log.  Part one: if a crash happens after
the commit point (the header is persisted with n > 0 and the log body holds
the transaction data; any prefix of the install steps may also have run), then
recovery installs every logged block at its destination and zeroes the header,
producing exactly the on-disk state of the completed commit.  Part two: for
every sequence of committed transactions, a crash at a transaction boundary
recovers to exactly the state after that prefix of transactions, and a crash
after the commit point of any transaction recovers to the state after that
transaction — the recovered disk always equals the state after some prefix of
the sequence, never a mix. -/
theorem log_crash_atomicity (start : Nat) :
    (∀ (lh : LogHeader) (s : Log.DState) (j : Nat),
      Log.WfHdr start lh → 0 < lh.n → j ≤ lh.n →
      (Log.recover start (Log.crash (Log.installOver start lh (List.range j)
        (Log.commitPointState start lh s)))).disk = (Log.commitTxn start lh s).disk) ∧
    (∀ (s0 : Log.DState) (ts : List Log.Txn),
      Log.HdrInv start s0 → (∀ t ∈ ts, Log.WfHdr start t.lh) →
      (∀ k : Nat,
        (Log.recover start (Log.crash (Log.runTxns start (ts.take k) s0))).disk
          = (Log.runTxns start (ts.take k) s0).disk) ∧
      (∀ (pre : List Log.Txn) (t : Log.Txn) (post : List Log.Txn) (j : Nat),
        ts = pre ++ t :: post →
        ∃ i ≤ ts.length,
          (Log.recover start (Log.crash (Log.midCrashState start t j
            (Log.runTxns start pre s0)))).disk
            = (Log.runTxns start (ts.take i) s0).disk)) := by
  constructor
  · intro lh s j hwf hn hj
    exact Log.crash_after_commit_point start lh s j hwf hn hj
  · intro s0 ts hinv hwf
    constructor
    · intro k
      exact Log.recover_noop start _ (Log.HdrInv_runTxns start (ts.take k) s0 hinv
        (fun t2 h2 => hwf t2 (List.take_subset k ts h2)))
    · intro pre t post j hts
      subst hts
      refine ⟨pre.length + 1, by simp, ?_⟩
      have htake : (pre ++ t :: post).take (pre.length + 1) = pre ++ [t] := by
        rw [List.take_append]
        rfl
      have hrun : Log.runTxns start (pre ++ [t]) s0
          = Log.doTxn start t (Log.runTxns start pre s0) := by
        unfold Log.runTxns
        rw [List.foldl_append]
        rfl
      rw [htake, hrun]
      by_cases hn : 0 < t.lh.n
      · unfold Log.midCrashState
        rw [if_pos hn]
        exact Log.crash_after_commit_point start t.lh
          (Log.applyCacheWrites t (Log.runTxns start pre s0)) (min j t.lh.n)
          (hwf t (by simp)) hn (Nat.min_le_right _ _)
      · unfold Log.midCrashState
        rw [if_neg hn]
        have hinv2 : Log.HdrInv start
            (Log.applyCacheWrites t (Log.runTxns start pre s0)) := by
          obtain ⟨lh0, ha, hb2, hc, hd⟩ := Log.HdrInv_runTxns start pre s0 hinv
            (fun t2 h2 => hwf t2 (List.mem_append_left _ h2))
          exact ⟨lh0, ha, hb2, hc, by rw [Log.applyCacheWrites_disk]; exact hd⟩
        rw [Log.recover_noop start _ hinv2, Log.applyCacheWrites_disk]
        show (Log.runTxns start pre s0).disk
          = (Log.doTxn start t (Log.runTxns start pre s0)).disk
        unfold Log.doTxn Log.commitTxn
        rw [if_neg hn, Log.applyCacheWrites_disk]

/-- A one-entry header logging block 10 (destination outside the log region
[2, 3]). -/
def lhW : LogHeader := ⟨1, 10 :: List.replicate 63 0⟩

/-- An all-zero disk with an empty cache. -/
def emptyD : Log.DState := ⟨fun _ => (fun _ => 0), fun _ => none⟩

/-- A freshly made filesystem state: the header block at log_start = 2 holds
an encoded zero-count header. -/
def s0W : Log.DState :=
  ⟨fun b => if b = 2 then Log.encodeHeader ⟨0, List.replicate 64 0⟩ else (fun _ => 0),
   fun _ => none⟩

/-- Witness for log_crash_atomicity: a crash exactly at the commit point of a
one-block transaction, and a boundary crash on a fresh filesystem. -/
theorem log_crash_atomicity_witness :
    ((Log.recover 2 (Log.crash (Log.installOver 2 lhW (List.range 0)
        (Log.commitPointState 2 lhW emptyD)))).disk = (Log.commitTxn 2 lhW emptyD).disk) ∧
    ((Log.recover 2 (Log.crash (Log.runTxns 2 (([] : List Log.Txn).take 1) s0W))).disk
      = (Log.runTxns 2 (([] : List Log.Txn).take 1) s0W).disk) :=
  ⟨(log_crash_atomicity 2).1 lhW emptyD 0
      ⟨by decide, by decide, by decide, by decide⟩ (by decide) (by decide),
   ((log_crash_atomicity 2).2 s0W []
      ⟨⟨0, List.replicate 64 0⟩, by decide, by decide, rfl, rfl⟩
      (fun t h => absurd h (List.not_mem_nil t))).1 1⟩

/-! Infrastructure for the write/read round-trip proof. -/

theorem getD_set_self (l : List Nat) (i v : Nat) (h : i < l.length) :
    (l.set i v).getD i 0 = v := by
  simp [List.getD, List.getElem?_set_self, h]

theorem getD_set_ne (l : List Nat) (i j v : Nat) (h : i ≠ j) :
    (l.set i v).getD j 0 = l.getD j 0 := by
  simp [List.getD, List.getElem?_set_ne h]

theorem and_shift_eq_zero_iff (x k : Nat) :
    (x &&& (1 <<< k) = 0) ↔ x.testBit k = false := by
  rw [Nat.shiftLeft_eq, one_mul, Nat.and_two_pow]
  cases h : x.testBit k
  · simp
  · simp [Nat.pow_eq_zero]

theorem or_shift_bit_other (a k k' : Nat) (h : k ≠ k') :
    ((a ||| (1 <<< k)) &&& (1 <<< k') = 0) ↔ (a &&& (1 <<< k') = 0) := by
  rw [and_shift_eq_zero_iff, and_shift_eq_zero_iff, Nat.shiftLeft_eq, one_mul,
    Nat.testBit_or]
  have h2 : (2 ^ k).testBit k' = false := by simp [Nat.testBit_two_pow, h]
  simp [h2]

theorem or_shift_bit_self (a k : Nat) :
    ¬ ((a ||| (1 <<< k)) &&& (1 <<< k) = 0) := by
  rw [and_shift_eq_zero_iff, Nat.shiftLeft_eq, one_mul, Nat.testBit_or]
  simp [Nat.testBit_two_pow]

theorem beq_zero_congr (a b : Nat) (h : a = 0 ↔ b = 0) : (a == 0) = (b == 0) :=
  Bool.eq_iff_iff.mpr (by simp only [beq_iff_eq]; exact h)

/-- The blocks an inode-layer write must never target as file data: the
inode-table block of the inode at hand and the bitmap region. -/
def MetaBlk (sb : SB) (no b : Nat) : Prop :=
  b = sb.iblock no ∨ (sb.bmap_start ≤ b ∧ b ≤ sb.bmap_start + sb.nblocks / BPB)

instance (sb : SB) (no b : Nat) : Decidable (MetaBlk sb no b) := by
  unfold MetaBlk
  infer_instance

theorem bblock_mem_meta (sb : SB) (no x : Nat) (hx : x < sb.nblocks) :
    MetaBlk sb no (sb.bblock x) :=
  Or.inr ⟨Nat.le_add_right _ _,
    Nat.add_le_add_left (Nat.div_le_div_right (Nat.le_of_lt hx)) _⟩

/-- Consistency of a state and a locked inode, as established by mkfs and
preserved by every inode-layer operation: the address list has its full
length; distinct slots hold distinct blocks; every allocated block is inside
the disk, marked used in the bitmap, and is neither the inode-table block of
this inode nor a bitmap block; and every block marked free in the bitmap is
nonzero and not a metadata block. -/
def Wf (sb : SB) (s : Fstate) (ino : Inode) : Prop :=
  ino.addrs.length = NDIRECT + 1 ∧
  (∀ j < NDIRECT + 1, ∀ j' < NDIRECT + 1, j ≠ j' → ino.addrs.getD j 0 ≠ 0 →
    ino.addrs.getD j 0 ≠ ino.addrs.getD j' 0) ∧
  (∀ j < NDIRECT + 1, ino.addrs.getD j 0 ≠ 0 →
    ino.addrs.getD j 0 < sb.nblocks ∧
    Bitmap.bitClear sb s (ino.addrs.getD j 0) = false ∧
      ¬ MetaBlk sb ino.no (ino.addrs.getD j 0)) ∧
  (∀ b < sb.nblocks, Bitmap.bitClear sb s b = true → b ≠ 0 ∧ ¬ MetaBlk sb ino.no b)

theorem Wf_of_bits_eq (sb : SB) (s s2 : Fstate) (ino : Inode) (hwf : Wf sb s ino)
    (hbits : ∀ x < sb.nblocks, Bitmap.bitClear sb s2 x = Bitmap.bitClear sb s x) :
    Wf sb s2 ino := by
  obtain ⟨hlen, hdist, haddr, hfree⟩ := hwf
  refine ⟨hlen, hdist, ?_, ?_⟩
  · intro j hj hnz
    obtain ⟨h1, h2, h3⟩ := haddr j hj hnz
    exact ⟨h1, by rw [hbits _ h1]; exact h2, h3⟩
  · intro b hb hcl
    exact hfree b hb (by rw [← hbits _ hb]; exact hcl)

theorem txn_write_some (sb : SB) (s : Fstate) (bno : Nat) (data : Block) (s2 : Fstate)
    (h : Transaction.write sb s bno data = some s2) :
    s2.blocks bno = data ∧ (∀ b, b ≠ bno → s2.blocks b = s.blocks b) := by
  unfold Transaction.write at h
  split at h
  · exact absurd h (by simp)
  · have heq := Option.some.inj h
    constructor
    · rw [← heq]
      show upd s.blocks bno data bno = data
      unfold upd
      rw [if_pos rfl]
    · intro b hb
      rw [← heq]
      show upd s.blocks bno data b = s.blocks b
      unfold upd
      rw [if_neg hb]

theorem bitClear_txn_write (sb : SB) (s : Fstate) (bno : Nat) (data : Block)
    (s2 : Fstate) (h : Transaction.write sb s bno data = some s2)
    (no : Nat) (hmeta : ¬ MetaBlk sb no bno) :
    ∀ x < sb.nblocks, Bitmap.bitClear sb s2 x = Bitmap.bitClear sb s x := by
  intro x hx
  obtain ⟨_, hfr⟩ := txn_write_some sb s bno data s2 h
  unfold Bitmap.bitClear Transaction.read
  rw [hfr _ (fun hc => hmeta (hc ▸ bblock_mem_meta sb no x hx))]

theorem find?_range_some {N d : Nat} {p : Nat → Bool}
    (h : (List.range N).find? p = some d) : p d = true ∧ d < N :=
  ⟨List.find?_some h, List.mem_range.mp (List.mem_of_find?_eq_some h)⟩

/-- What a successful Bitmap::alloc guarantees on a well-formed state: the
returned block is a real, nonzero, non-metadata block that was free; its bit
is now set and all other bits are unchanged; only the bitmap block and the
zeroed fresh block were written. -/
theorem alloc_spec (sb : SB) (s : Fstate) (ino : Inode) (d : Nat) (s2 : Fstate)
    (hwf : Wf sb s ino) (h : Bitmap.alloc sb s = some (d, s2)) :
    d < sb.nblocks ∧ d ≠ 0 ∧ ¬ MetaBlk sb ino.no d ∧
    Bitmap.bitClear sb s d = true ∧
    Bitmap.bitClear sb s2 d = false ∧
    (∀ x < sb.nblocks, x ≠ d → Bitmap.bitClear sb s2 x = Bitmap.bitClear sb s x) ∧
    (∀ b, b ≠ sb.bblock d → b ≠ d → s2.blocks b = s.blocks b) := by
  obtain ⟨hlen, hdist, haddr, hfree⟩ := hwf
  unfold Bitmap.alloc at h
  rcases hscan : Bitmap.allocScan sb s with _ | i
  · rw [hscan] at h
    exact absurd h (by simp)
  · rw [hscan] at h
    dsimp only at h
    rcases hw1 : Transaction.write sb s (sb.bblock i)
        (upd (Transaction.read s (sb.bblock i)) (i % BPB / 8)
          (Transaction.read s (sb.bblock i) (i % BPB / 8) ||| (1 <<< (i % BPB % 8))))
        with _ | s1
    · rw [hw1] at h
      exact absurd h (by simp)
    · rw [hw1] at h
      dsimp only at h
      rcases hw2 : Bitmap.zero sb s1 i with _ | s3
      · rw [hw2] at h
        exact absurd h (by simp)
      · rw [hw2] at h
        dsimp only at h
        have hinj := Option.some.inj h
        have hid : i = d := congrArg Prod.fst hinj
        have hs : s3 = s2 := congrArg Prod.snd hinj
        subst hid
        subst hs
        unfold Bitmap.allocScan at hscan
        have hfind := find?_range_some hscan
        have hdn : i < sb.nblocks := Nat.lt_of_lt_of_le hfind.2 (Nat.div_mul_le_self _ _)
        have hd0 := hfree i hdn hfind.1
        obtain ⟨hz1, hfr1⟩ := txn_write_some _ _ _ _ _ hw1
        have hw2' : Transaction.write sb s1 i (fun _ => 0) = some s3 := hw2
        obtain ⟨hz2, hfr2⟩ := txn_write_some _ _ _ _ _ hw2'
        have hbbne : ∀ x, x < sb.nblocks → sb.bblock x ≠ i := fun x hx hc =>
          hd0.2 (hc ▸ bblock_mem_meta sb ino.no x hx)
        have hframe : ∀ b, b ≠ sb.bblock i → b ≠ i → s3.blocks b = s.blocks b := by
          intro b hb1 hb2
          rw [hfr2 _ hb2, hfr1 _ hb1]
        have hBPB : BPB = 4096 := rfl
        have hbyteof' : ∀ x, x < sb.nblocks →
            Transaction.read s3 (sb.bblock x) = Transaction.read s1 (sb.bblock x) := by
          intro x hx
          unfold Transaction.read
          rw [hfr2 _ (hbbne x hx)]
        have hbit_self : Bitmap.bitClear sb s3 i = false := by
          unfold Bitmap.bitClear
          rw [hbyteof' i hdn]
          unfold Transaction.read
          rw [hz1]
          unfold Transaction.read upd
          rw [if_pos rfl, beq_eq_false_iff_ne]
          exact or_shift_bit_self _ _
        have hbit_other : ∀ x, x < sb.nblocks → x ≠ i →
            Bitmap.bitClear sb s3 x = Bitmap.bitClear sb s x := by
          intro x hx hxne
          unfold Bitmap.bitClear
          rw [hbyteof' x hx]
          by_cases hxb : sb.bblock x = sb.bblock i
          · rw [hxb]
            unfold Transaction.read
            rw [hz1]
            have hdiv : x / BPB = i / BPB := by
              unfold SB.bblock at hxb
              omega
            unfold Transaction.read upd
            by_cases hbyte : x % BPB / 8 = i % BPB / 8
            · rw [if_pos hbyte, hbyte]
              have hbitne : i % BPB % 8 ≠ x % BPB % 8 := by
                intro hc
                rw [hBPB] at hdiv hbyte hc
                omega
              exact beq_zero_congr _ _ (or_shift_bit_other _ _ _ hbitne)
            · rw [if_neg hbyte]
          · unfold Transaction.read
            rw [hfr1 _ hxb]
        exact ⟨hdn, hd0.1, hd0.2, hfind.1, hbit_self, hbit_other, hframe⟩

/-- What a successful direct-range nth_block guarantees on a well-formed
state: the returned block is the (possibly freshly allocated) direct pointer
at `idx`, nonzero, inside the disk, not metadata, marked used; other pointers
and the inode identity are untouched; blocks that were used and non-metadata
are unmodified; used bits stay used. -/
theorem nth_block_direct_spec (sb : SB) (s : Fstate) (ino : Inode) (idx : Nat)
    (bno : Nat) (s2 : Fstate) (ino2 : Inode) (hwf : Wf sb s ino) (hidx : idx < NDIRECT)
    (h : Inode.nth_block sb s ino idx = some (some bno, s2, ino2)) :
    Wf sb s2 ino2 ∧
    ino2.no = ino.no ∧ ino2.size = ino.size ∧ ino2.file_type = ino.file_type ∧
    ino2.nlink = ino.nlink ∧
    ino2.addrs.getD idx 0 = bno ∧ bno ≠ 0 ∧ bno < sb.nblocks ∧
    ¬ MetaBlk sb ino.no bno ∧ Bitmap.bitClear sb s2 bno = false ∧
    (∀ j, j ≠ idx → ino2.addrs.getD j 0 = ino.addrs.getD j 0) ∧
    (∀ b, Bitmap.bitClear sb s b = false → ¬ MetaBlk sb ino.no b →
      s2.blocks b = s.blocks b) ∧
    (∀ x < sb.nblocks, Bitmap.bitClear sb s x = false → Bitmap.bitClear sb s2 x = false) ∧
    (ino.addrs.getD idx 0 = bno ∨ Bitmap.bitClear sb s bno = true) := by
  have hlen0 := hwf.1
  unfold Inode.nth_block at h
  rw [if_pos hidx] at h
  by_cases hz : ino.addrs.getD idx 0 = 0
  · rw [if_pos hz] at h
    rcases halloc : Bitmap.alloc sb s with _ | ⟨d, sA⟩
    · rw [halloc] at h
      exact absurd h (by simp)
    · rw [halloc] at h
      dsimp only at h
      have hinj := Option.some.inj h
      have hb : some d = some bno := congrArg Prod.fst hinj
      have hbd : d = bno := Option.some.inj hb
      have hsA : sA = s2 := congrArg (fun r => r.2.1) hinj
      have hino : { ino with addrs := ino.addrs.set idx d } = ino2 :=
        congrArg (fun r => r.2.2) hinj
      subst hbd
      subst hsA
      obtain ⟨hdn, hd0, hdm, hclr, hset, hother, hfr⟩ :=
        alloc_spec sb s ino d sA hwf halloc
      obtain ⟨hlen, hdist, haddr, hfree⟩ := hwf
      have hidx13 : idx < ino.addrs.length := by rw [hlen]; omega
      have hgetset : ino2.addrs.getD idx 0 = d := by
        rw [← hino]
        exact getD_set_self _ _ _ hidx13
      have hgetne : ∀ j, j ≠ idx → ino2.addrs.getD j 0 = ino.addrs.getD j 0 := by
        intro j hj
        rw [← hino]
        exact getD_set_ne _ _ _ _ (fun hc => hj hc.symm)
      have hno2 : ino2.no = ino.no := by rw [← hino]
      have hsize2 : ino2.size = ino.size := by rw [← hino]
      have hft2 : ino2.file_type = ino.file_type := by rw [← hino]
      have hnl2 : ino2.nlink = ino.nlink := by rw [← hino]
      have hd_ne_old : ∀ j < NDIRECT + 1, ino.addrs.getD j 0 ≠ 0 →
          ino.addrs.getD j 0 ≠ d := by
        intro j hj hnz hc
        have := (haddr j hj hnz).2.1
        rw [hc, hclr] at this
        exact Bool.noConfusion this
      have hbits : ∀ x < sb.nblocks, Bitmap.bitClear sb s x = false →
          Bitmap.bitClear sb sA x = false := by
        intro x hx hxf
        by_cases hxd : x = d
        · rw [hxd]; exact hset
        · rw [hother x hx hxd]; exact hxf
      refine ⟨?_, hno2, hsize2, hft2, hnl2, hgetset, hd0, hdn, hdm, hset, hgetne, ?_, hbits,
        Or.inr hclr⟩
      · refine ⟨?_, ?_, ?_, ?_⟩
        · rw [← hino]
          simpa using hlen
        · intro j hj j' hj' hne hnz hc
          by_cases hjx : j = idx
          · rw [hjx] at hnz hc
            rw [hgetset] at hnz hc
            have hj'x : j' ≠ idx := fun hcc => hne (hjx.trans hcc.symm)
            rw [hgetne j' hj'x] at hc
            by_cases hz' : ino.addrs.getD j' 0 = 0
            · rw [hz'] at hc; exact hd0 hc
            · exact hd_ne_old j' hj' hz' hc.symm
          · rw [hgetne j hjx] at hnz hc
            by_cases hj'x : j' = idx
            · rw [hj'x] at hc
              rw [hgetset] at hc
              exact hd_ne_old j hj hnz hc
            · rw [hgetne j' hj'x] at hc
              exact hdist j hj j' hj' hne hnz hc
        · intro j hj hnz
          rw [hno2]
          by_cases hjx : j = idx
          · subst hjx
            rw [hgetset] at hnz ⊢
            exact ⟨hdn, hset, hdm⟩
          · rw [hgetne j hjx] at hnz ⊢
            obtain ⟨h1, h2, h3⟩ := haddr j hj hnz
            refine ⟨h1, ?_, h3⟩
            rw [hother _ h1 (hd_ne_old j hj hnz)]
            exact h2
        · intro b hb hcl
          rw [hno2]
          refine hfree b hb ?_
          by_cases hbd2 : b = d
          · rw [hbd2] at hcl
            rw [hset] at hcl
            exact Bool.noConfusion hcl
          · rw [← hother b hb hbd2]
            exact hcl
      · intro b hbf hbm
        refine hfr b (fun hc => hbm (hc ▸ bblock_mem_meta sb ino.no d hdn)) ?_
        intro hc
        rw [hc, hclr] at hbf
        exact Bool.noConfusion hbf
  · rw [if_neg hz] at h
    have hinj := Option.some.inj h
    have hb : some (ino.addrs.getD idx 0) = some bno := congrArg Prod.fst hinj
    have hbd : ino.addrs.getD idx 0 = bno := Option.some.inj hb
    have hsA : s = s2 := congrArg (fun r => r.2.1) hinj
    have hino : ino = ino2 := congrArg (fun r => r.2.2) hinj
    subst hsA
    subst hino
    obtain ⟨hlen, hdist, haddr, hfree⟩ := hwf
    obtain ⟨h1, h2, h3⟩ := haddr idx (by omega) hz
    rw [hbd] at h1 h2 h3 hz
    exact ⟨⟨hlen, hdist, haddr, hfree⟩, rfl, rfl, rfl, rfl, hbd, hz, h1, h3, h2,
      fun j _ => rfl, fun b _ _ => rfl, fun x _ hx => hx, Or.inl hbd⟩

theorem BSIZE_eq : BSIZE = 512 := rfl

theorem getD_of_len_le (l : List Nat) (n : Nat) (h : l.length ≤ n) : l.getD n 0 = 0 := by
  simp [List.getD, List.getElem?_eq_none h]

/-- nth_block returns a block number only in the direct range. -/
theorem nth_block_some_val (sb : SB) (s : Fstate) (ino : Inode) (n : Nat)
    (bno : Nat) (s2 : Fstate) (ino2 : Inode)
    (h : Inode.nth_block sb s ino n = some (some bno, s2, ino2)) : n < NDIRECT := by
  by_contra hge
  unfold Inode.nth_block at h
  rw [if_neg hge] at h
  split at h
  · dsimp only at h
    repeat' split at h
    all_goals simp at h
  · simp at h

theorem NDIRECT_eq : NDIRECT = 12 := rfl

/-- The inductive specification of the Inode::write loop on a well-formed
state: it writes all of `data` at byte positions cur, cur+1, ... into the
(direct) blocks of the inode, allocating as needed; earlier direct pointers,
protected blocks and the set bits of the bitmap are preserved. -/
theorem writeLoop_spec (sb : SB) (no : Nat) :
    ∀ (fuel : Nat) (s : Fstate) (ino : Inode) (data : List Nat) (cur written : Nat)
      (s' : Fstate) (ino' : Inode) (w' : Nat),
      Inode.writeLoop sb fuel s ino data cur written = some (s', ino', w') →
      Wf sb s ino → ino.no = no → written ≤ data.length →
      (w' = data.length ∧ Wf sb s' ino' ∧ ino'.no = no ∧ ino'.size = ino.size ∧
        (∀ j < cur / BSIZE, ino'.addrs.getD j 0 = ino.addrs.getD j 0) ∧
        (written < data.length → cur + (data.length - written) ≤ NDIRECT * BSIZE) ∧
        (∀ j, written < data.length → cur / BSIZE ≤ j →
          j ≤ (cur + (data.length - written) - 1) / BSIZE → ino'.addrs.getD j 0 ≠ 0) ∧
        (∀ i, written ≤ i → i < data.length →
          s'.blocks (ino'.addrs.getD ((cur + (i - written)) / BSIZE) 0)
            ((cur + (i - written)) % BSIZE) = data.getD i 0) ∧
        (∀ b, b < sb.nblocks → Bitmap.bitClear sb s b = false → ¬ MetaBlk sb no b →
          (∀ j, cur / BSIZE ≤ j → ino.addrs.getD j 0 ≠ b) →
          s'.blocks b = s.blocks b) ∧
        (∀ x < sb.nblocks, Bitmap.bitClear sb s x = false →
          Bitmap.bitClear sb s' x = false)) := by
  intro fuel
  induction fuel with
  | zero =>
    intro s ino data cur written s' ino' w' h hwf hno hwle
    unfold Inode.writeLoop at h
    by_cases hterm : data.length ≤ written
    · rw [if_pos hterm] at h
      have hinj := Option.some.inj h
      have e1 : s = s' := congrArg (fun r => r.1) hinj
      have e2 : ino = ino' := congrArg (fun r => r.2.1) hinj
      have e3 : written = w' := congrArg (fun r => r.2.2) hinj
      subst e1
      subst e2
      subst e3
      exact ⟨by omega, hwf, hno, rfl, fun j _ => rfl, fun hlt => absurd hlt (by omega),
        fun j hlt _ _ => absurd hlt (by omega), fun i h1 h2 => absurd h2 (by omega),
        fun b _ _ _ _ => rfl, fun x _ hx => hx⟩
    · rw [if_neg hterm] at h
      exact Option.noConfusion h
  | succ fuel' ih =>
    intro s ino data cur written s' ino' w' h hwf hno hwle
    unfold Inode.writeLoop at h
    by_cases hterm : data.length ≤ written
    · rw [if_pos hterm] at h
      have hinj := Option.some.inj h
      have e1 : s = s' := congrArg (fun r => r.1) hinj
      have e2 : ino = ino' := congrArg (fun r => r.2.1) hinj
      have e3 : written = w' := congrArg (fun r => r.2.2) hinj
      subst e1
      subst e2
      subst e3
      exact ⟨by omega, hwf, hno, rfl, fun j _ => rfl, fun hlt => absurd hlt (by omega),
        fun j hlt _ _ => absurd hlt (by omega), fun i h1 h2 => absurd h2 (by omega),
        fun b _ _ _ _ => rfl, fun x _ hx => hx⟩
    · rw [if_neg hterm] at h
      dsimp only at h
      simp only [BSIZE_eq] at h ⊢
      simp only [NDIRECT_eq]
      rcases hnb : Inode.nth_block sb s ino (cur / 512) with _ | ⟨_ | bno, sA, ino1⟩
      · rw [hnb] at h
        exact Option.noConfusion h
      · rw [hnb] at h
        dsimp only at h
        exact Option.noConfusion h
      · rw [hnb] at h
        dsimp only at h
        have hidx : cur / 512 < 12 := by
          have := nth_block_some_val sb s ino _ bno sA ino1 hnb
          simpa [NDIRECT_eq] using this
        obtain ⟨hwfA, hnoA, hsizeA, hftA, hnlA, hgetA, hbno0, hbnoN, hbnoM, hbnoBit,
            hgetne, hfrA, hbitsA, horig⟩ :=
          nth_block_direct_spec sb s ino (cur / 512) bno sA ino1 hwf
            (by rw [NDIRECT_eq]; exact hidx) hnb
        have hlenA : ino1.addrs.length = 13 := by
          have := hwfA.1
          simpa [NDIRECT_eq] using this
        rcases hw : Transaction.write sb sA bno
            (Inode.writeRange (Transaction.read sA bno) (cur % 512)
              (min (data.length - written) (512 - cur % 512)) data written) with _ | s3
        · rw [hw] at h
          exact Option.noConfusion h
        · rw [hw] at h
          obtain ⟨hz3, hfr3⟩ := txn_write_some sb sA bno _ s3 hw
          have hMno : ¬ MetaBlk sb no bno := hno ▸ hbnoM
          have hbitseq3 : ∀ x < sb.nblocks,
              Bitmap.bitClear sb s3 x = Bitmap.bitClear sb sA x :=
            bitClear_txn_write sb sA bno _ s3 hw no hMno
          have hwf3 : Wf sb s3 ino1 := Wf_of_bits_eq sb sA s3 ino1 hwfA hbitseq3
          have hbits03 : ∀ x, x < sb.nblocks → Bitmap.bitClear sb s x = false →
              Bitmap.bitClear sb s3 x = false := by
            intro x hx hxf
            rw [hbitseq3 x hx]
            exact hbitsA x hx hxf
          have hb_ne_of_protected : ∀ b, Bitmap.bitClear sb s b = false →
              (∀ j, cur / 512 ≤ j → ino.addrs.getD j 0 ≠ b) → b ≠ bno := by
            intro b hbf hbav hc
            rcases horig with hor | hor
            · exact hbav (cur / 512) (Nat.le_refl _) (by rw [hor, hc])
            · rw [hc, hor] at hbf
              exact Bool.noConfusion hbf
          have hgetne' : ∀ j, cur / 512 < j → ino1.addrs.getD j 0 = ino.addrs.getD j 0 :=
            fun j hj => hgetne j (by omega)
          have hchunk_content : ∀ i, written ≤ i →
              i < written + min (data.length - written) (512 - cur % 512) →
              s3.blocks bno (cur % 512 + (i - written)) = data.getD i 0 := by
            intro i hi1 hi2
            rw [hz3]
            unfold Inode.writeRange
            rw [if_pos (by omega)]
            rw [show cur % 512 + (i - written) - cur % 512 + written = i from by omega]
          by_cases hfin : data.length ≤ written + min (data.length - written) (512 - cur % 512)
          · -- the recursive call exits immediately: this was the final chunk
            unfold Inode.writeLoop at h
            rw [if_pos hfin] at h
            have hinj := Option.some.inj h
            have e1 : s3 = s' := congrArg (fun r => r.1) hinj
            have e2 : ino1 = ino' := congrArg (fun r => r.2.1) hinj
            have e3 : written + min (data.length - written) (512 - cur % 512) = w' :=
              congrArg (fun r => r.2.2) hinj
            subst e1
            subst e2
            subst e3
            have hwlen : written + min (data.length - written) (512 - cur % 512)
                = data.length := by omega
            refine ⟨hwlen, hwf3, hnoA.trans hno, hsizeA, ?_, ?_, ?_, ?_, ?_, ?_⟩
            · intro j hj
              exact hgetne j (by omega)
            · intro _
              have : cur % 512 < 512 := Nat.mod_lt _ (by omega)
              omega
            · intro j _ hj1 hj2
              have hju : j = cur / 512 := by
                have : cur % 512 < 512 := Nat.mod_lt _ (by omega)
                omega
              rw [hju, hgetA]
              exact hbno0
            · intro i hi1 hi2
              have hpd : (cur + (i - written)) / 512 = cur / 512 := by omega
              have hpm : (cur + (i - written)) % 512 = cur % 512 + (i - written) := by omega
              rw [hpd, hpm, hgetA]
              exact hchunk_content i hi1 (by omega)
            · intro b hbn hbf hbm hbav
              rw [hfr3 b (hb_ne_of_protected b hbf hbav)]
              exact hfrA b hbf (hno ▸ hbm)
            · exact hbits03
          · -- the loop continues: this chunk filled its block to the end
            have hmfull : min (data.length - written) (512 - cur % 512)
                = 512 - cur % 512 := by omega
            have hcurm : (cur + min (data.length - written) (512 - cur % 512)) / 512
                = cur / 512 + 1 := by
              have : cur % 512 < 512 := Nat.mod_lt _ (by omega)
              omega
            obtain ⟨hw'len, hwf', hno', hsize', hstab', hbound', hnz', hcont', hfr', hbits'⟩ :=
              ih s3 ino1 data (cur + min (data.length - written) (512 - cur % 512))
                (written + min (data.length - written) (512 - cur % 512)) s' ino' w' h hwf3
                (hnoA.trans hno) (by omega)
            simp only [BSIZE_eq, NDIRECT_eq] at hstab' hbound' hnz' hcont' hfr'
            have hstabq : ino'.addrs.getD (cur / 512) 0 = bno := by
              rw [hstab' (cur / 512) (by omega), hgetA]
            have hino1b : ∀ j, cur / 512 + 1 ≤ j → ino1.addrs.getD j 0 ≠ bno := by
              intro j hj hc
              by_cases hj13 : j < 13
              · by_cases hjz : ino1.addrs.getD j 0 = 0
                · rw [hjz] at hc
                  exact hbno0 hc.symm
                · obtain ⟨_, hdistA, _, _⟩ := hwfA
                  refine hdistA j (by rw [NDIRECT_eq]; omega) (cur / 512)
                    (by rw [NDIRECT_eq]; omega) (by omega) hjz ?_
                  rw [hgetA]
                  exact hc
              · rw [getD_of_len_le _ _ (by omega)] at hc
                exact hbno0 hc.symm
            have hkeep : s'.blocks bno = s3.blocks bno := by
              refine hfr' bno hbnoN ?_ hMno ?_
              · rw [hbitseq3 bno hbnoN]
                exact hbnoBit
              · intro j hj
                exact hino1b j (by omega : cur / 512 + 1 ≤ j)
            refine ⟨hw'len, hwf', hno', hsize'.trans hsizeA, ?_, ?_, ?_, ?_, ?_, ?_⟩
            · intro j hj
              rw [hstab' j (by omega), hgetne j (by omega)]
            · intro _
              have := hbound' (by omega)
              omega
            · intro j hwl hj1 hj2
              by_cases hjq : j = cur / 512
              · rw [hjq, hstabq]
                exact hbno0
              · refine hnz' j (by omega) (by omega) ?_
                have : cur % 512 < 512 := Nat.mod_lt _ (by omega)
                omega
            · intro i hi1 hi2
              by_cases hchunk : i < written + min (data.length - written) (512 - cur % 512)
              · have hpd : (cur + (i - written)) / 512 = cur / 512 := by
                  have : cur % 512 < 512 := Nat.mod_lt _ (by omega)
                  omega
                have hpm : (cur + (i - written)) % 512 = cur % 512 + (i - written) := by
                  have : cur % 512 < 512 := Nat.mod_lt _ (by omega)
                  omega
                rw [hpd, hpm, hstabq, hkeep]
                exact hchunk_content i hi1 hchunk
              · have := hcont' i (by omega) hi2
                rw [show cur + min (data.length - written) (512 - cur % 512) +
                    (i - (written + min (data.length - written) (512 - cur % 512)))
                    = cur + (i - written) from by omega] at this
                exact this
            · intro b hbn hbf hbm hbav
              have h1 : s'.blocks b = s3.blocks b := by
                refine hfr' b hbn (hbits03 b hbn hbf) hbm ?_
                intro j hj
                rw [hgetne' j (by omega)]
                exact hbav j (by omega)
              have h2 : s3.blocks b = sA.blocks b :=
                hfr3 b (hb_ne_of_protected b hbf hbav)
              have h3 : sA.blocks b = s.blocks b := hfrA b hbf (hno ▸ hbm)
              rw [h1, h2, h3]
            · intro x hx hxf
              exact hbits' x hx (hbits03 x hx hxf)

/-- The Inode::read loop on a state whose touched direct pointers are all
allocated: no allocation happens, the state and inode are unchanged, and the
returned bytes are exactly the stored bytes at positions cur, cur+1, .... -/
theorem readLoop_spec (sb : SB) :
    ∀ (fuel : Nat) (s : Fstate) (ino : Inode) (cur got n : Nat) (acc : List Nat),
      got ≤ n → n - got ≤ fuel →
      (got < n → cur + (n - got) ≤ NDIRECT * BSIZE) →
      (∀ j, cur / BSIZE ≤ j → j ≤ (cur + (n - got) - 1) / BSIZE → got < n →
        ino.addrs.getD j 0 ≠ 0) →
      Inode.readLoop sb fuel s ino cur got n acc =
        some (acc ++ (List.range (n - got)).map
          (fun i => s.blocks (ino.addrs.getD ((cur + i) / BSIZE) 0) ((cur + i) % BSIZE)),
          s, ino) := by
  intro fuel
  induction fuel with
  | zero =>
    intro s ino cur got n acc hle hfuel hbnd hnz
    unfold Inode.readLoop
    rw [if_pos (by omega : n ≤ got), show n - got = 0 from by omega]
    simp
  | succ fuel' ih =>
    intro s ino cur got n acc hle hfuel hbnd hnz
    unfold Inode.readLoop
    by_cases hterm : n ≤ got
    · rw [if_pos hterm, show n - got = 0 from by omega]
      simp
    · rw [if_neg hterm]
      dsimp only
      simp only [BSIZE_eq, NDIRECT_eq] at hbnd hnz ⊢
      have hmod : cur % 512 < 512 := Nat.mod_lt _ (by omega)
      have hidx : cur / 512 < 12 := by
        have hb := hbnd (by omega)
        omega
      have haddr : ino.addrs.getD (cur / 512) 0 ≠ 0 :=
        hnz (cur / 512) (Nat.le_refl _) (by omega) (by omega)
      have hnb : Inode.nth_block sb s ino (cur / 512)
          = some (some (ino.addrs.getD (cur / 512) 0), s, ino) := by
        unfold Inode.nth_block
        rw [if_pos (by rw [NDIRECT_eq]; exact hidx)]
        rw [if_neg haddr]
      rw [hnb]
      dsimp only
      generalize hM : min (n - got) (512 - cur % 512) = M
      have hM1 : 1 ≤ M := by omega
      have hM2 : M ≤ n - got := by omega
      have hM3 : M ≤ 512 - cur % 512 := by omega
      rw [ih s ino (cur + M) (got + M) n _ (by omega) (by omega)
        (by
          intro h2
          simp only [BSIZE_eq, NDIRECT_eq]
          have := hbnd (by omega)
          omega)
        (by
          intro j hj1 hj2 hj3
          simp only [BSIZE_eq] at hj1 hj2
          exact hnz j (by omega) (by omega) (by omega))]
      simp only [BSIZE_eq]
      refine congrArg (fun l => some (l, s, ino)) ?_
      rw [List.append_assoc]
      refine congrArg (fun l => acc ++ l) ?_
      rw [show n - got = M + (n - (got + M)) from by omega]
      rw [List.range_add, List.map_append, List.map_map]
      refine congrArg₂ (fun a b => a ++ b) ?_ ?_
      · refine List.map_congr_left (fun i hi => ?_)
        have him : i < M := List.mem_range.mp hi
        rw [show (cur + i) / 512 = cur / 512 from by omega,
          show (cur + i) % 512 = cur % 512 + i from by omega]
        rfl
      · refine List.map_congr_left (fun i hi => ?_)
        show s.blocks (ino.addrs.getD ((cur + M + i) / 512) 0) ((cur + M + i) % 512) =
          s.blocks (ino.addrs.getD ((cur + (M + i)) / 512) 0) ((cur + (M + i)) % 512)
        rw [Nat.add_assoc]

theorem map_range_getD (l : List Nat) :
    (List.range l.length).map (fun i => l.getD i 0) = l := by
  refine List.ext_getElem (by simp) ?_
  intro i h1 h2
  simp only [List.getElem_map, List.getElem_range]
  rw [List.getD_eq_getElem l 0 h2]

/-- Claim C5: the write/read round trip.  On a consistent state (Wf), if
Inode::write succeeds, it returns exactly the length of the data, and an
immediate Inode::read of the same range from the resulting state returns
exactly the written bytes. -/
theorem write_read_roundtrip (sb : SB) (s : Fstate) (ino : Inode) (offset : Nat)
    (data : List Nat) (hwf : Wf sb s ino) :
    ∀ r, Inode.write sb s ino offset data = some r →
      r.1 = data.length ∧
      (Inode.read sb r.2.1 r.2.2 offset data.length).map (fun t => t.1) = some data := by
  intro r h
  unfold Inode.write at h
  dsimp only at h
  by_cases hg : ino.size < offset ∨
      saturatingAdd offset data.length ≠ offset + data.length ∨
      MAXFILESIZE < offset + data.length
  · rw [if_pos hg] at h
    exact Option.noConfusion h
  · rw [if_neg hg] at h
    push_neg at hg
    obtain ⟨hg1, hg2, hg3⟩ := hg
    rcases hloop : Inode.writeLoop sb data.length s ino data offset 0 with _ | ⟨s2, ino2, written⟩
    · rw [hloop] at h
      exact Option.noConfusion h
    · rw [hloop] at h
      dsimp only at h
      obtain ⟨hwlen, hwf2, hno2, hsize2, hstab, hbound, hnz, hcont, hfr, hbits⟩ :=
        writeLoop_spec sb ino.no data.length s ino data offset 0 s2 ino2 written hloop hwf
          rfl (Nat.zero_le _)
      by_cases hext : 0 < written ∧ ino.size < offset + written
      · rw [if_pos hext] at h
        rcases hupd : Inode.update sb s2 { ino2 with size := offset + written }
            with _ | s3
        · rw [hupd] at h
          exact Option.noConfusion h
        · rw [hupd] at h
          have hr : r = (written, s3, { ino2 with size := offset + written }) :=
            (Option.some.inj h).symm
          subst hr
          have hn0 : 0 < data.length := by omega
          unfold Inode.update at hupd
          obtain ⟨_, hfru⟩ := txn_write_some _ _ _ _ _ hupd
          refine ⟨hwlen, ?_⟩
          show (Inode.read sb s3 { ino2 with size := offset + written }
            offset data.length).map (fun t => t.1) = some data
          unfold Inode.read
          rw [if_neg (by
            show ¬ (({ ino2 with size := offset + written } : Inode).size < offset ∨ _ ∨ _)
            push_neg
            refine ⟨by show offset ≤ offset + written; omega, hg2, hg3⟩)]
          dsimp only
          rw [if_neg (by show ¬ (offset + written < offset + data.length); omega)]
          have haddr_nz : ∀ j, offset / BSIZE ≤ j →
              j ≤ (offset + (data.length - 0) - 1) / BSIZE → (0 : Nat) < data.length →
              ({ ino2 with size := offset + written } : Inode).addrs.getD j 0 ≠ 0 := by
            intro j hj1 hj2 _
            show ino2.addrs.getD j 0 ≠ 0
            refine hnz j (by omega) hj1 ?_
            simpa using hj2
          rw [readLoop_spec sb data.length s3 _ offset 0 data.length []
            (Nat.zero_le _) (by omega)
            (fun _ => by simpa using hbound (by omega))
            (fun j hj1 hj2 hj3 => haddr_nz j hj1 (by simpa using hj2) hj3)]
          simp only [Option.map_some', List.nil_append, Nat.sub_zero]
          refine congrArg some ?_
          have hmap : ∀ i ∈ List.range data.length,
              s3.blocks (({ ino2 with size := offset + written } : Inode).addrs.getD
                ((offset + i) / BSIZE) 0) ((offset + i) % BSIZE) = data.getD i 0 := by
            intro i hi
            have hilt : i < data.length := List.mem_range.mp hi
            show s3.blocks (ino2.addrs.getD ((offset + i) / BSIZE) 0)
              ((offset + i) % BSIZE) = data.getD i 0
            have hanz : ino2.addrs.getD ((offset + i) / BSIZE) 0 ≠ 0 := by
              refine hnz ((offset + i) / BSIZE) (by omega)
                (by simp only [BSIZE_eq]; omega) ?_
              simp only [BSIZE_eq, Nat.sub_zero] at *
              omega
            have hmeta : ¬ MetaBlk sb ino2.no (ino2.addrs.getD ((offset + i) / BSIZE) 0) := by
              obtain ⟨hlen2, hdist2, haddr2, hfree2⟩ := hwf2
              refine (haddr2 ((offset + i) / BSIZE) ?_ hanz).2.2
              have hb := hbound hn0
              simp only [BSIZE_eq, NDIRECT_eq, Nat.sub_zero] at hb ⊢
              omega
            have hne_ib : ino2.addrs.getD ((offset + i) / BSIZE) 0 ≠
                sb.iblock ({ ino2 with size := offset + written } : Inode).no := by
              intro hc
              exact hmeta (Or.inl (by rw [hc]))
            rw [hfru _ hne_ib]
            have := hcont i (Nat.zero_le _) hilt
            simpa using this
          rw [List.map_congr_left hmap]
          exact map_range_getD data
      · rw [if_neg hext] at h
        have hr : r = (written, s2, ino2) := (Option.some.inj h).symm
        subst hr
        have hfits : offset + data.length ≤ ino.size := by
          rcases Decidable.not_and_iff_or_not.mp hext with h1 | h1 <;> omega
        refine ⟨hwlen, ?_⟩
        show (Inode.read sb s2 ino2 offset data.length).map (fun t => t.1) = some data
        unfold Inode.read
        rw [if_neg (by
          push_neg
          exact ⟨by omega, hg2, hg3⟩)]
        dsimp only
        rw [if_neg (by omega : ¬ (ino2.size < offset + data.length))]
        rw [readLoop_spec sb data.length s2 ino2 offset 0 data.length []
          (Nat.zero_le _) (by omega)
          (fun h0 => by simpa using hbound (by omega))
          (fun j hj1 hj2 hj3 => by
            refine hnz j (by omega) hj1 ?_
            simpa using hj2)]
        simp only [Option.map_some', List.nil_append, Nat.sub_zero]
        refine congrArg some ?_
        have hmap : ∀ i ∈ List.range data.length,
            s2.blocks (ino2.addrs.getD ((offset + i) / BSIZE) 0) ((offset + i) % BSIZE)
              = data.getD i 0 := by
          intro i hi
          have hilt : i < data.length := List.mem_range.mp hi
          have := hcont i (Nat.zero_le _) hilt
          simpa using this
        rw [List.map_congr_left hmap]
        exact map_range_getD data

set_option maxRecDepth 100000 in
/-- The concrete pre-state for the round-trip witness is consistent. -/
theorem wf_witness : Wf sbT sBm inoC10w :=
  ⟨by decide, by decide, by decide, by decide⟩

set_option maxRecDepth 100000 in
/-- Witness for write_read_roundtrip: writing three bytes at offset 0 of a
3-byte file whose data block 71 is allocated, then reading them back. -/
theorem write_read_roundtrip_witness :
    ((Inode.write sbT sBm inoC10w 0 [9, 8, 7]).map (fun r => r.1) = some 3) ∧
    ((Inode.write sbT sBm inoC10w 0 [9, 8, 7]).bind
      (fun r => (Inode.read sbT r.2.1 r.2.2 0 3).map (fun t => t.1)) = some [9, 8, 7]) := by
  have h := write_read_roundtrip sbT sBm inoC10w 0 [9, 8, 7] wf_witness
  cases heq : Inode.write sbT sBm inoC10w 0 [9, 8, 7] with
  | none =>
    have hs : (Inode.write sbT sBm inoC10w 0 [9, 8, 7]).isSome = true := by decide
    rw [heq] at hs
    exact absurd hs (by simp)
  | some r =>
    obtain ⟨h1, h2⟩ := h r heq
    constructor
    · rw [Option.map_some', h1]
      rfl
    · show (Inode.read sbT r.2.1 r.2.2 0 3).map (fun t => t.1) = some [9, 8, 7]
      exact h2
